import Mathlib

/-!
Verification of the core logic of the Urho3D-Blender exporter add-on
(`io_mesh_urho/export_scene.py`, `io_mesh_urho/prefabs.py`,
`urho_scene_prefab.py`) against its natural-language specification.

The Python sources are shallowly embedded below: Python floats are
modelled as rationals (float comparison in the source is exact value
comparison), Python dicts as insertion-ordered association structures
(CPython guarantees insertion order for `dict`), fallible operations
(`KeyError`, `NameError`, early `return`) as `Option`/`Except`/flags.
The `utils.py` module of the repository is not part of the provided
sources; where one of its functions decides a condition we model it from
the spec (see the individual doc comments).
-/

namespace Urho

/-! ### Tree builder (`export_scene.py`, classes `Node` and `Tree`)

`Tree.nodes` is the insertion-ordered list of dict keys of `self.nodes`;
`parent` and `children` give each node object's `parent` pointer and
`children` list (Python holds `Node` references, which is equivalent to
holding names since `self.nodes` maps each name to one unique node). -/

structure Tree where
  nodes : List String
  parent : String → Option String
  children : String → List String

/-- Embedding of `Tree.push` from `export_scene.py` lines 92-101:
create missing nodes for `name` (first) and the parent (second), then,
unless the parent equals the name, set the node's parent pointer and
append the node to the parent's children list. -/
def Tree.push (t : Tree) (item : String × Option String) : Tree :=
  let name := item.1
  let t1 : Tree := if name ∈ t.nodes then t else ⟨t.nodes ++ [name], t.parent, t.children⟩
  match item.2 with
  | none => t1
  | some parent =>
    let t2 : Tree := if parent ∈ t1.nodes then t1 else ⟨t1.nodes ++ [parent], t1.parent, t1.children⟩
    if parent ≠ name then
      ⟨t2.nodes,
       fun n => if n = name then some parent else t2.parent n,
       fun n => if n = parent then t2.children parent ++ [name] else t2.children n⟩
    else t2

/-- Embedding of `Node.to_list` (pre-order traversal, lines 82-86): the
Python recursion is unbounded, so the embedding carries explicit fuel;
`Tree.to_list` below supplies fuel `t.nodes.length`, which is shown to
be sufficient for every node when the parent relation is acyclic. -/
def Tree.toListFrom (t : Tree) : Nat → String → List String
  | 0, _ => []
  | fuel + 1, n => n :: (t.children n).flatMap (t.toListFrom fuel)

/-- Parentless nodes in dict order (`for node in self.nodes.values(): if not node.parent`). -/
def Tree.roots (t : Tree) : List String :=
  t.nodes.filter (fun n => (t.parent n).isNone)

/-- Embedding of `Tree.to_list` (lines 103-108): concatenate the
pre-order traversals of all parentless nodes, in node creation order. -/
def Tree.to_list (t : Tree) : List String :=
  t.roots.flatMap (t.toListFrom t.nodes.length)

/-- Build a tree by pushing a sequence of `(name, parent)` pairs into an
initially empty tree, as `UrhoScene.SortModels` does. -/
def treeBuild (l : List (String × Option String)) : Tree :=
  l.foldl Tree.push ⟨[], fun _ => none, fun _ => []⟩

/-- In list `l`, `a` occurs (strictly) before an occurrence of `b`. On a
duplicate-free list this pins the relative order of `a` and `b`. -/
def Precedes (l : List String) (a b : String) : Prop :=
  List.Sublist [a, b] l

/-- The pair pushes `n` with a real (non-self) parent. -/
def realParentPush (n : String) (pr : String × Option String) : Bool :=
  pr.1 == n && (match pr.2 with | some p => p != n | none => false)

/-- Acyclicity certificate for one input pair: either no (or a self)
parent, or the parent has strictly smaller rank. -/
def pairRankOk (rank : String → Nat) (pr : String × Option String) : Bool :=
  match pr.2 with
  | none => true
  | some p => p == pr.1 || decide (rank p < rank pr.1)

/-- One step of the ancestor relation: `a` is the parent of `b`. -/
def parentStep (t : Tree) (a b : String) : Prop :=
  t.parent b = some a

/-- Ancestor-or-self relation of the built forest. -/
def desc (t : Tree) : String → String → Prop :=
  Relation.ReflTransGen (parentStep t)

/-- Strict-ancestor relation of the built forest. -/
def strictAnc (t : Tree) : String → String → Prop :=
  Relation.TransGen (parentStep t)

/-- Structural well-formedness of a built tree: node keys are unique,
parent/children pointers stay inside the node set and are inverse to
each other, children lists are duplicate-free, and a `rank` function
witnesses acyclicity of the parent relation. -/
structure TreeWF (t : Tree) (rank : String → Nat) : Prop where
  nodes_nodup : t.nodes.Nodup
  parent_mem : ∀ n p, t.parent n = some p → n ∈ t.nodes ∧ p ∈ t.nodes
  children_mem : ∀ p c, c ∈ t.children p → c ∈ t.nodes ∧ p ∈ t.nodes
  mem_children_iff : ∀ p c, c ∈ t.children p ↔ t.parent c = some p
  children_nodup : ∀ p, (t.children p).Nodup
  rank_lt : ∀ n p, t.parent n = some p → rank p < rank n

/-- Number of nodes ranked strictly above `n`; the traversal measure. -/
def Tree.measureOf (t : Tree) (rank : String → Nat) (n : String) : Nat :=
  (t.nodes.filter (fun m => decide (rank n < rank m))).length

/-! ### File registry (`export_scene.py`, `UrhoScene.AddFile` / `FindFile`)

The `self.files` dict maps the concatenated key `pathType+name` to an
Urho path.  Modelled as an association list with dict update semantics
(replace in place if the key exists, else append). -/

def dictSet : List (String × String) → String → String → List (String × String)
  | [], k, v => [(k, v)]
  | (k', v') :: rest, k, v =>
    if k' = k then (k, v) :: rest else (k', v') :: dictSet rest k v

def dictGet : List (String × String) → String → Option String
  | [], _ => none
  | (k', v') :: rest, k => if k' = k then some v' else dictGet rest k

def dictHasKey (l : List (String × String)) (k : String) : Bool :=
  l.any (fun pr => pr.1 == k)

structure UrhoSceneFiles where
  files : List (String × String)

/-- Embedding of `UrhoScene.AddFile` (lines 120-128).  Note that the
source tests `name in self.files`, i.e. it checks the bare `name`
against keys of the form `pathType+name`. -/
def AddFile (s : UrhoSceneFiles) (pathType name fileUrhoPath : String) : Bool × UrhoSceneFiles :=
  if name = "" then (false, s)
  else if dictHasKey s.files name then (false, s)
  else (true, ⟨dictSet s.files (pathType ++ name) fileUrhoPath⟩)

/-- Embedding of `UrhoScene.FindFile` (lines 130-136). -/
def FindFile (s : UrhoSceneFiles) (pathType : String) (name : Option String) : Option String :=
  match name with
  | none => none
  | some nm => dictGet s.files (pathType ++ nm)

/-! ### Bit masks and physics attributes (`prefabs.py`) -/

def MAX_BITMASK_BITS : Nat := 8

def MAX_BITMASK_VALUE : Nat := (1 <<< MAX_BITMASK_BITS) - 1

/-- Embedding of `GetBitMask` (`prefabs.py` lines 27-35). -/
def GetBitMask (layers : List Bool) : Int :=
  let mask : Nat := layers.enum.foldl (fun m pr => if pr.2 then m ||| (1 <<< pr.1) else m) 0
  if mask = MAX_BITMASK_VALUE then -1 else (mask : Int)

structure Vec3 where
  x : ℚ
  y : ℚ
  z : ℚ
deriving DecidableEq

/-- Value carried by an emitted XML attribute.  The source renders
values through the excluded `utils` formatters; here the live value is
carried directly. -/
inductive AttrVal where
  | str : String → AttrVal
  | rat : ℚ → AttrVal
  | int : Int → AttrVal
  | vec3 : Vec3 → AttrVal
deriving DecidableEq

/-- Per-object RigidBody settings (the `urho_*` object properties read
by the RigidBody block of `UrhoExportPrefabs`, `prefabs.py` 263-376). -/
structure BodySettings where
  mass : ℚ
  friction : ℚ
  anisotropic_friction : Vec3
  rolling_friction : ℚ
  restitution : ℚ
  linear_velocity : Vec3
  angular_velocity : Vec3
  linear_factor : Vec3
  angular_factor : Vec3
  linear_damping : ℚ
  angular_damping : ℚ
  linear_rest_threshold : ℚ
  angular_rest_threshold : ℚ
  collision_layer : List Bool
  collision_mask : List Bool
  contact_threshold : ℚ
  ccd_radius : ℚ
  ccd_motion_threshold : ℚ
  collision_event_mode : String
  use_gravity : Bool
  is_kinematic : Bool
  is_trigger : Bool
  gravity_override : Vec3
deriving DecidableEq

/-- Embedding of the RigidBody attribute emission (`prefabs.py` lines
263-376), in source order, as the list of `(attribute name, value)`
pairs added under the RigidBody component element.

Modelled from the spec: the source compares some vector/float values
through `Vector3ToString`/`FloatToString` from the excluded `utils`
module ("space-separated shortest-round-trip decimal"); such a formatter
is injective and maps the default values to the literals the source
compares against (`'1 1 1'`, `'0 0 0'`, `'0.8'`), so those string
inequalities are embedded as the corresponding value inequalities.

Note the condition at source lines 353-356 tests
`urho_collision_event_mode != 'WHENACTIVE'` but writes the attribute
under the name `'CCD Motion Threshold'` (the preceding block's name),
reproduced faithfully here. -/
def bodyAttributes (o : BodySettings) : List (String × AttrVal) :=
  (if o.mass ≠ 0 then [("Mass", AttrVal.rat o.mass)] else []) ++
  (if o.friction ≠ 1/2 then [("Friction", AttrVal.rat o.friction)] else []) ++
  (if o.anisotropic_friction ≠ ⟨1, 1, 1⟩ then
    [("Anisotropic Friction", AttrVal.vec3 o.anisotropic_friction)] else []) ++
  (if o.rolling_friction ≠ 0 then [("Rolling Friction", AttrVal.rat o.rolling_friction)] else []) ++
  (if o.restitution ≠ 0 then [("Restitution", AttrVal.rat o.restitution)] else []) ++
  (if o.linear_velocity ≠ ⟨0, 0, 0⟩ then
    [("Linear Velocity", AttrVal.vec3 o.linear_velocity)] else []) ++
  (if o.angular_velocity ≠ ⟨0, 0, 0⟩ then
    [("Angular Velocity", AttrVal.vec3 o.angular_velocity)] else []) ++
  (if o.linear_factor ≠ ⟨1, 1, 1⟩ then [("Linear Factor", AttrVal.vec3 o.linear_factor)] else []) ++
  (if o.angular_factor ≠ ⟨1, 1, 1⟩ then
    [("Angular Factor", AttrVal.vec3 o.angular_factor)] else []) ++
  (if o.linear_damping ≠ 0 then [("Linear Damping", AttrVal.rat o.linear_damping)] else []) ++
  (if o.angular_damping ≠ 0 then [("Angular Damping", AttrVal.rat o.angular_damping)] else []) ++
  (if o.linear_rest_threshold ≠ 4/5 then
    [("Linear Rest Threshold", AttrVal.rat o.linear_rest_threshold)] else []) ++
  (if o.angular_rest_threshold ≠ 1 then
    [("Angular Rest Threshold", AttrVal.rat o.angular_rest_threshold)] else []) ++
  (if o.collision_layer ≠ [true, false, false, false, false, false, false, false] then
    [("Collision Layer", AttrVal.int (GetBitMask o.collision_layer))] else []) ++
  (if o.collision_mask ≠ List.replicate 8 true then
    [("Collision Mask", AttrVal.int (GetBitMask o.collision_mask))] else []) ++
  (if o.contact_threshold < 100000000000000000 then
    [("Contact Threshold", AttrVal.rat o.contact_threshold)] else []) ++
  (if o.ccd_radius ≠ 0 then [("CCD Radius", AttrVal.rat o.ccd_radius)] else []) ++
  (if o.ccd_motion_threshold ≠ 0 then
    [("CCD Motion Threshold", AttrVal.rat o.ccd_motion_threshold)] else []) ++
  (if o.collision_event_mode ≠ "WHENACTIVE" then
    [("CCD Motion Threshold", AttrVal.str o.collision_event_mode)] else []) ++
  (if !o.use_gravity then [("Use Gravity", AttrVal.str "false")] else []) ++
  (if o.is_kinematic then [("Is Kinematic", AttrVal.str "true")] else []) ++
  (if o.is_trigger then [("Is Trigger", AttrVal.str "true")] else []) ++
  (if o.gravity_override ≠ ⟨0, 0, 0⟩ then
    [("Gravity Override", AttrVal.vec3 o.gravity_override)] else [])

/-- Default RigidBody settings, from the property defaults in
`prefabs.py` lines 690-712 (equivalently the reset operator 610-634). -/
def bodyDefaults : BodySettings :=
  ⟨0, 1/2, ⟨1, 1, 1⟩, 0, 0, ⟨0, 0, 0⟩, ⟨0, 0, 0⟩, ⟨1, 1, 1⟩, ⟨1, 1, 1⟩, 0, 0, 4/5, 1,
   [true, false, false, false, false, false, false, false], List.replicate 8 true,
   1000000000000000000, 0, 0, "WHENACTIVE", true, false, false, ⟨0, 0, 0⟩⟩

/-- Default settings except `urho_collision_event_mode = 'NEVER'`. -/
def bodyEventModeNever : BodySettings :=
  ⟨0, 1/2, ⟨1, 1, 1⟩, 0, 0, ⟨0, 0, 0⟩, ⟨0, 0, 0⟩, ⟨1, 1, 1⟩, ⟨1, 1, 1⟩, 0, 0, 4/5, 1,
   [true, false, false, false, false, false, false, false], List.replicate 8 true,
   1000000000000000000, 0, 0, "NEVER", true, false, false, ⟨0, 0, 0⟩⟩

/-! ### Collision shape size and offset (`prefabs.py` lines 229-252)

The variables `bbox`, `x`, `y`, `z` are assigned only inside the
"compute size from the bounding box" branch; in Python they remain
bound across iterations of the `for uSceneModel in ...` loop, so the
offset branch either raises `NameError` (modelled as `none`) when no
earlier iteration bound them, or silently reads the latest bound
values.  `PhysBindings` is that loop-carried binding state. -/

structure BBox where
  min : Vec3
  max : Vec3
deriving DecidableEq

structure ShapeOpts where
  shapeType : String
  overwrite_size : Bool
  size : Vec3
  size_factor : Vec3
  overwrite_offset_position : Bool
  offset_position : Vec3
deriving DecidableEq

abbrev PhysBindings := Option (BBox × ℚ × ℚ × ℚ)

/-- Embedding of the CollisionShape size/offset computation for one
physics-enabled object (`prefabs.py` lines 229-252).  Returns the
computed `(shapeSize, shapeOffset)` (or `none` for the `NameError`
case) together with the updated loop-carried bindings. -/
def shapeStep (env : PhysBindings) (o : ShapeOpts) (bb : BBox) :
    Option (Vec3 × Vec3) × PhysBindings :=
  if o.overwrite_size then
    let shapeSize := o.size
    if o.overwrite_offset_position then (some (shapeSize, o.offset_position), env)
    else
      match env with
      | none => (none, none)
      | some (bbox, x, y, z) =>
        let off0 : Vec3 := ⟨bbox.max.x - x / 2, bbox.max.y - y / 2, bbox.max.z - z / 2⟩
        let shapeOffset := if o.shapeType = "Box" ∧ y = 0 then
          (⟨off0.x, -(1/2), off0.z⟩ : Vec3) else off0
        (some (shapeSize, shapeOffset), some (bbox, x, y, z))
  else
    let bbox := bb
    let x := bbox.max.x - bbox.min.x
    let y := bbox.max.y - bbox.min.y
    let z := bbox.max.z - bbox.min.z
    let size0 : Vec3 := ⟨x * o.size_factor.x, y * o.size_factor.y, z * o.size_factor.z⟩
    let shapeSize := if o.shapeType = "Box" ∧ y = 0 then (⟨size0.x, 1, size0.z⟩ : Vec3) else size0
    let shapeOffset :=
      if o.overwrite_offset_position then o.offset_position
      else
        let off0 : Vec3 := ⟨bbox.max.x - x / 2, bbox.max.y - y / 2, bbox.max.z - z / 2⟩
        if o.shapeType = "Box" ∧ y = 0 then (⟨off0.x, -(1/2), off0.z⟩ : Vec3) else off0
    (some (shapeSize, shapeOffset), some (bbox, x, y, z))

/-- Run the shape computation over the physics-enabled objects of one
export invocation, threading the loop-carried variable bindings. -/
def shapeRun : PhysBindings → List (ShapeOpts × BBox) → List (Option (Vec3 × Vec3))
  | _, [] => []
  | env, (o, bb) :: rest =>
    let r := shapeStep env o bb
    r.1 :: shapeRun r.2 rest

/-! ### Collective-pass nesting and the missing-model early return
(`prefabs.py` lines 143-178 and 532-551) -/

structure SceneModel where
  name : String
  type : String
  parentObjectName : Option String
deriving DecidableEq

/-- Nesting condition of `prefabs.py` line 170: the CURRENT model's type
is `'StaticModel'`, it has a parent object name, and that name is
already a key of `elements` (i.e. a previously emitted model). -/
def nestCond (emitted : List String) (m : SceneModel) : Bool :=
  m.type == "StaticModel" &&
    (match m.parentObjectName with
     | some p => emitted.contains p
     | none => false)

/-- Loop over the sorted model list for a collective/scene pass
(`currentPass > 0`): for each model, `FindFile` failure executes
`return` (aborting the whole invocation, flag `false`); otherwise the
model's node is attached under its parent's element or the root, and
the model's name is added to `elements`.  `hasFile` abstracts
`uScene.FindFile(PathType.MODELS, name)` being truthy.  The result is
the list of `(model name, attached-under)` pairs (`none` = root) plus
the completion flag. -/
def collectiveLoop (hasFile : String → Bool) :
    List String → List SceneModel → List (String × Option String) × Bool
  | _, [] => ([], true)
  | emitted, m :: ms =>
    if hasFile m.name then
      let att : Option String := if nestCond emitted m then m.parentObjectName else none
      let r := collectiveLoop hasFile (emitted ++ [m.name]) ms
      ((m.name, att) :: r.1, r.2)
    else ([], false)

structure CollectiveResult where
  attach : List (String × Option String)
  collectiveWritten : Bool
  sceneWritten : Bool
deriving DecidableEq

/-- Embedding of a collective/scene invocation of `UrhoExportPrefabs`:
run the model loop, then write the collective file (if requested and
not merging) and the scene file (if requested) — but only if the loop
completed, since the missing-model `return` at lines 153-155 skips the
write code at lines 540-551.  The `CheckFilepath` overwrite gate lives
in the excluded `utils` module and is treated as allowing the write. -/
def runCollectivePass (hasFile : String → Bool) (doCollective doScene merge : Bool)
    (models : List SceneModel) : CollectiveResult :=
  let r := collectiveLoop hasFile [] models
  ⟨r.1, r.2 && doCollective && !merge, r.2 && doScene⟩

/-- Modelled from the spec (amended): a model's node is nested under its
resolved parent exactly when the model itself is of StaticModel kind,
names a parent, and that parent was already emitted; otherwise it is
attached to the shared root. -/
def attachRule : List String → List SceneModel → List (String × Option String)
  | _, [] => []
  | emitted, m :: ms =>
    (m.name,
      if m.type == "StaticModel" &&
          (match m.parentObjectName with
           | some p => emitted.contains p
           | none => false)
      then m.parentObjectName else none) :: attachRule (emitted ++ [m.name]) ms

/-! ### Node and component ID allocation (`prefabs.py` lines 61-63,
103-129, 165-178, 254-261, 379-383, 428-461) -/

structure IdObj where
  physics : Bool
  navigable : Bool
  subnode : Bool
deriving DecidableEq

structure IdsOut where
  physics : Bool
  navigable : Bool
  nodeId : Nat
  bodyId : Option Nat
  shapeId : Option Nat
  navId : Option Nat
  modelCompId : Nat
  subnodeId : Option Nat
deriving DecidableEq

/-- Per-model loop of `UrhoExportPrefabs`, reduced to its ID traffic.
In pass 0 the individual node takes the current `nodeID` and the
counter is then reset to the base (line 168); in later passes the
counter is incremented before being used (lines 177-178).  The
component counter is reset to the base only when a RigidBody is created
in pass 0 (line 257); RigidBody, CollisionShape, Navigable and the
model component each take the current `compoID` and increment it.  A
pass-0 sub-node takes the current `nodeID` without incrementing
(line 431). -/
def allocLoop (currentPass : Nat) : Nat → Nat → List IdObj → List IdsOut × Nat × Nat
  | nodeID, compoID, [] => ([], nodeID, compoID)
  | nodeID, compoID, o :: os =>
    let nid := if currentPass = 0 then nodeID else nodeID + 1
    let nodeID1 := if currentPass = 0 then 0x1000000 else nodeID + 1
    let pr : Option Nat × Option Nat × Nat :=
      if o.physics then
        let c0 := if currentPass = 0 then 0x1000000 else compoID
        (some c0, some (c0 + 1), c0 + 2)
      else (none, none, compoID)
    let subId := if o.subnode && currentPass = 0 then some nodeID1 else none
    let navPr : Option Nat × Nat :=
      if o.navigable then (some pr.2.2, pr.2.2 + 1) else (none, pr.2.2)
    let mid := navPr.2
    let r := allocLoop currentPass nodeID1 (navPr.2 + 1) os
    (⟨o.physics, o.navigable, nid, pr.1, pr.2.1, navPr.1, mid, subId⟩ :: r.1, r.2)

/-- Embedding of one `UrhoExportPrefabs` invocation reduced to ID
allocation.  Both counters start at `0x1000000` (lines 62-63); when a
scene prefab is requested the directional-light node consumes one node
ID (lines 103-105) and the root node takes the current counter value
without incrementing (line 129). -/
def allocIds (doScene : Bool) (currentPass : Nat) (objs : List IdObj) :
    List IdsOut × Nat × Nat :=
  let nodeID0 := if doScene then 0x1000000 + 1 else 0x1000000
  allocLoop currentPass nodeID0 0x1000000 objs

def IdObj.comps (o : IdObj) : Nat :=
  (if o.physics then 2 else 0) + (if o.navigable then 1 else 0) + 1

def totalComps (objs : List IdObj) : Nat :=
  (objs.map IdObj.comps).sum

/-- All component IDs of an invocation in emission order. -/
def compIdsOf (out : List IdsOut) : List Nat :=
  out.flatMap (fun o => o.bodyId.toList ++ o.shapeId.toList ++ o.navId.toList ++ [o.modelCompId])

/-! ### Scene-from-prefabs transform rewrite (`urho_scene_prefab.py`
lines 296-327) and instance placement (lines 253-260, 329-333) -/

/-- One direct child element of a re-read prefab root: its XML tag and,
for `attribute` elements, the `name`/`value` XML attributes (both `""`
on other tags). -/
structure XEl where
  tag : String
  name : String
  value : String
deriving DecidableEq

/-- Embedding of the `for attribute in prefab_root.findall('attribute')`
rewrite loop: the first `Position`/`Rotation`/`Scale` attribute child
gets the computed string and the corresponding local variable is set to
`''` (so later duplicates would receive `''`).  Returns the rewritten
children together with the leftover `pos`/`rot`/`scale` values. -/
def setTransforms : String → String → String → List XEl → List XEl × String × String × String
  | pos, rot, scale, [] => ([], pos, rot, scale)
  | pos, rot, scale, el :: rest =>
    if el.tag = "attribute" ∧ el.name = "Position" then
      let r := setTransforms "" rot scale rest
      (⟨el.tag, el.name, pos⟩ :: r.1, r.2)
    else if el.tag = "attribute" ∧ el.name = "Rotation" then
      let r := setTransforms pos "" scale rest
      (⟨el.tag, el.name, rot⟩ :: r.1, r.2)
    else if el.tag = "attribute" ∧ el.name = "Scale" then
      let r := setTransforms pos rot "" rest
      (⟨el.tag, el.name, scale⟩ :: r.1, r.2)
    else
      let r := setTransforms pos rot scale rest
      (el :: r.1, r.2)

/-- Embedding of lines 296-327: rewrite the existing transform
attributes in place, then append a new `attribute` element for each of
Position, Rotation, Scale whose computed string was not consumed
(`if pos != '': ... SubElement(prefab_root, 'attribute')`). -/
def applyTransforms (children : List XEl) (pos rot scale : String) : List XEl :=
  let r := setTransforms pos rot scale children
  r.1 ++ (if r.2.1 ≠ "" then [⟨"attribute", "Position", r.2.1⟩] else [])
      ++ (if r.2.2.1 ≠ "" then [⟨"attribute", "Rotation", r.2.2.1⟩] else [])
      ++ (if r.2.2.2 ≠ "" then [⟨"attribute", "Scale", r.2.2.2⟩] else [])

/-- Pointwise description of the rewrite: a transform attribute element
receives the corresponding computed string, everything else is kept. -/
def rewriteOne (pos rot scale : String) (el : XEl) : XEl :=
  if el.tag = "attribute" ∧ el.name = "Position" then ⟨el.tag, el.name, pos⟩
  else if el.tag = "attribute" ∧ el.name = "Rotation" then ⟨el.tag, el.name, rot⟩
  else if el.tag = "attribute" ∧ el.name = "Scale" then ⟨el.tag, el.name, scale⟩
  else el

def hasAttr (nm : String) (l : List XEl) : Bool :=
  l.any (fun el => el.tag == "attribute" && el.name == nm)

def countAttr (nm : String) (l : List XEl) : Nat :=
  l.countP (fun el => el.tag == "attribute" && el.name == nm)

/-- One gathered prefab instance (`urho_scene_prefab.py` class
`UrhoInstance`), reduced to the fields the placement logic reads. -/
structure UrhoInstance where
  name : String
  objectName : String
  parentName : Option String
deriving DecidableEq

/-- Embedding of the instance loop of `ExportScenePrefabButton.execute`
(lines 253-260 and 329-333).  `readable` abstracts `GetPrefabRoot`
succeeding (file exists and its root tag is `node`); a failed read
skips the instance (`continue`).  Otherwise `elements[objectName]` is
set, and the subtree is appended under `elements[parentName]` when
`instance.parentName and instance.objectName in elements` holds — note
the source tests the instance's OWN `objectName`, which was just
inserted — indexing `elements[parentName]` raises `KeyError`
(`Except.error parentName`, aborting the export) when the parent was
never placed.  The result lists `(objectName, appended-under)` with
`none` meaning the scene root. -/
def placeInstances (readable : String → Bool) :
    List String → List UrhoInstance → Except String (List (String × Option String))
  | _, [] => Except.ok []
  | elements, inst :: rest =>
    if readable inst.name then
      let elements1 := elements ++ [inst.objectName]
      match inst.parentName with
      | some p =>
        if inst.objectName ∈ elements1 then
          if p ∈ elements1 then
            match placeInstances readable elements1 rest with
            | Except.ok l => Except.ok ((inst.objectName, some p) :: l)
            | Except.error e => Except.error e
          else Except.error p
        else
          match placeInstances readable elements1 rest with
          | Except.ok l => Except.ok ((inst.objectName, none) :: l)
          | Except.error e => Except.error e
      | none =>
        match placeInstances readable elements1 rest with
        | Except.ok l => Except.ok ((inst.objectName, none) :: l)
        | Except.error e => Except.error e
    else placeInstances readable elements rest

/-! ### Concrete inputs used by witnesses and counterexamples -/

/-- Box-shape physics settings with both overwrite switches off and unit
size factor. -/
def boxOptsEx : ShapeOpts := ⟨"Box", false, ⟨0, 0, 0⟩, ⟨1, 1, 1⟩, false, ⟨0, 0, 0⟩⟩

/-- Bounding box `min=(0,0,0), max=(2,0,4)` with zero Y extent. -/
def flatBBoxEx : BBox := ⟨⟨0, 0, 0⟩, ⟨2, 0, 4⟩⟩

/-- Physics settings with `urho_overwrite_size` on and
`urho_overwrite_offset_position` off. -/
def overwriteSizeOptsEx : ShapeOpts := ⟨"Sphere", true, ⟨5, 5, 5⟩, ⟨1, 1, 1⟩, false, ⟨0, 0, 0⟩⟩

/-- A unit bounding box. -/
def unitBBoxEx : BBox := ⟨⟨0, 0, 0⟩, ⟨1, 1, 1⟩⟩

/-- Physics settings taking the compute-from-bounding-box branch. -/
def computedOptsEx : ShapeOpts := ⟨"TriangleMesh", false, ⟨0, 0, 0⟩, ⟨1, 1, 1⟩, false, ⟨0, 0, 0⟩⟩

/-- Bounding box `min=(0,0,0), max=(8,2,6)`. -/
def wideBBoxEx : BBox := ⟨⟨0, 0, 0⟩, ⟨8, 2, 6⟩⟩

/-- The two-record scenario from the spec. -/
def cubeModelsEx : List SceneModel :=
  [⟨"Cube", "StaticModel", none⟩, ⟨"Cube.001", "StaticModel", some "Cube"⟩]

/-- A StaticModel child whose parent object is an AnimatedModel. -/
def animModelsEx : List SceneModel :=
  [⟨"Rig", "AnimatedModel", none⟩, ⟨"Crate", "StaticModel", some "Rig"⟩]

/-- Two models, the first of which has no registered mesh file. -/
def missingModelsEx : List SceneModel :=
  [⟨"First", "StaticModel", none⟩, ⟨"Second", "StaticModel", none⟩]

/-- Children of a re-read prefab root lacking all three transform
attributes. -/
def prefabChildrenEx : List XEl :=
  [⟨"attribute", "Name", "Cube"⟩, ⟨"component", "StaticModel", ""⟩]

/-- A physics- and navigable-enabled object. -/
def idObjEx : IdObj := ⟨true, true, false⟩

/-- Helper for reasoning about `Tree.push`: add a node key if missing,
leaving the parent and children maps untouched. -/
def addN (t : Tree) (x : String) : Tree :=
  ⟨if x ∈ t.nodes then t.nodes else t.nodes ++ [x], t.parent, t.children⟩

/-! ## Theorems -/

/-- C2.  With every RigidBody property at its default except
`urho_collision_event_mode = 'NEVER'` (which differs from its default
`'WHENACTIVE'`), the emitted RigidBody attribute list consists of a
single attribute that carries the changed value under the WRONG name
`'CCD Motion Threshold'`; no attribute named `'Collision Event Mode'`
is emitted.  This contradicts the claim that an attribute differing
from its default appears under its own attribute name; the condition at
`prefabs.py` 353 tests the event mode while lines 354-356 reuse the
preceding block's element variable and attribute name, a copy-paste
slip. -/
theorem collisionEventMode_wrong_attribute_name :
    bodyEventModeNever.collision_event_mode ≠ "WHENACTIVE"
    ∧ bodyAttributes bodyEventModeNever = [("CCD Motion Threshold", AttrVal.str "NEVER")]
    ∧ ∀ v : AttrVal, ("Collision Event Mode", v) ∉ bodyAttributes bodyEventModeNever := by
  have h : bodyAttributes bodyEventModeNever = [("CCD Motion Threshold", AttrVal.str "NEVER")] := by
    norm_num [bodyAttributes, bodyEventModeNever]
    decide
  refine ⟨by decide, h, ?_⟩
  rw [h]
  intro v
  simp

/-- C6.  Registering the same `(category, name)` key twice is NOT
rejected: the membership test at `export_scene.py` line 124 checks the
bare `name` against keys of the form `pathType+name`, so the second
`AddFile` also returns `true` and overwrites the stored path — the
registry ends up mapping the key to the SECOND path, contradicting both
the claim and the function's own log message `'Already added'`. -/
theorem addFile_duplicate_overwrites :
    (AddFile ⟨[]⟩ "3DModels" "Box" "Models/Box.mdl").1 = true
    ∧ (AddFile (AddFile ⟨[]⟩ "3DModels" "Box" "Models/Box.mdl").2
        "3DModels" "Box" "Models/Box2.mdl").1 = true
    ∧ FindFile (AddFile (AddFile ⟨[]⟩ "3DModels" "Box" "Models/Box.mdl").2
        "3DModels" "Box" "Models/Box2.mdl").2 "3DModels" (some "Box")
      = some "Models/Box2.mdl" := by
  decide

/-- C9.  An instance naming a parent that was never placed does not
fall back to the scene root: since `elements[instance.objectName]` was
just assigned, the guard `instance.objectName in elements` is always
true, and `elements[instance.parentName]` raises `KeyError`, aborting
the export (the guard was evidently meant to test `parentName`). -/
theorem placeInstances_missing_parent_keyerror :
    placeInstances (fun _ => true) [] [⟨"Chair", "Chair", some "Table"⟩]
      = Except.error "Table" := rfl

/-- C5.  For a physics-enabled object whose size and offset are both
computed (no overrides), a Box shape over a bounding box with zero Y
extent gets Y size forced to 1 and Y offset forced to -1/2, the other
axes being extent times size factor and the box centre respectively
(`prefabs.py` lines 229-252). -/
theorem box_flat_bbox_forces_y (env : PhysBindings) (o : ShapeOpts) (bb : BBox)
    (hs : o.overwrite_size = false) (ho : o.overwrite_offset_position = false)
    (ht : o.shapeType = "Box") (hy : bb.max.y = bb.min.y) :
    (shapeStep env o bb).1 =
      some (⟨(bb.max.x - bb.min.x) * o.size_factor.x, 1,
             (bb.max.z - bb.min.z) * o.size_factor.z⟩,
            ⟨bb.max.x - (bb.max.x - bb.min.x) / 2, -(1/2),
             bb.max.z - (bb.max.z - bb.min.z) / 2⟩) := by
  have hy0 : bb.max.y - bb.min.y = 0 := sub_eq_zero_of_eq hy
  simp [shapeStep, hs, ho, ht, hy0]

/-- Witness for C5: the spec's concrete scenario, bounding box
`min=(0,0,0), max=(2,0,4)`, unit size factor, yielding size `(2,1,4)`
and offset `(1,-0.5,2)`. -/
theorem box_flat_bbox_forces_y_witness :
    (shapeStep none boxOptsEx flatBBoxEx).1
      = some (⟨2, 1, 4⟩, ⟨1, -(1/2), 2⟩) := by
  have h := box_flat_bbox_forces_y none boxOptsEx flatBBoxEx rfl rfl rfl rfl
  rw [h]
  norm_num [boxOptsEx, flatBBoxEx]

/-- C10 (amended).  For a physics-enabled object with
`urho_overwrite_size` on and `urho_overwrite_offset_position` off, the
offset computation reads `bbox`, `x`, `y`, `z`, which are assigned only
in the size-from-bounding-box branch: if no earlier object of the same
invocation took that branch the computation reaches an unbound-variable
error; otherwise it silently produces an offset from the STALE values
left by the most recent such object. -/
theorem offset_overwriteSize_stale_or_error (o : ShapeOpts) (bb : BBox)
    (h1 : o.overwrite_size = true) (h2 : o.overwrite_offset_position = false) :
    (shapeStep none o bb).1 = none
    ∧ ∀ bbox x y z, (shapeStep (some (bbox, x, y, z)) o bb).1 =
        some (o.size,
          if o.shapeType = "Box" ∧ y = 0
          then ⟨bbox.max.x - x / 2, -(1/2), bbox.max.z - z / 2⟩
          else ⟨bbox.max.x - x / 2, bbox.max.y - y / 2, bbox.max.z - z / 2⟩) := by
  constructor
  · simp [shapeStep, h1, h2]
  · intro bbox x y z
    by_cases hbox : o.shapeType = "Box" ∧ y = 0 <;> simp [shapeStep, h1, h2, hbox]

/-- Witness for C10 (amended): on the first physics object of an
invocation the error branch is reached. -/
theorem offset_overwriteSize_stale_or_error_witness :
    (shapeStep none overwriteSizeOptsEx unitBBoxEx).1 = none :=
  (offset_overwriteSize_stale_or_error overwriteSizeOptsEx unitBBoxEx rfl rfl).1

/-- Counterexample to C10 as stated: when an EARLIER object of the same
invocation computed its size from its bounding box, a later object with
`urho_overwrite_size` on and `urho_overwrite_offset_position` off does
NOT reach an unbound-variable error — it produces an offset, computed
from the earlier object's stale `bbox`/`x`/`y`/`z` values
(here `(4,1,3)`, the centre of the FIRST object's bounding box). -/
theorem offset_unbound_counterexample :
    shapeRun none [(computedOptsEx, wideBBoxEx), (overwriteSizeOptsEx, unitBBoxEx)]
      = [some (⟨8, 2, 6⟩, ⟨4, 1, 3⟩), some (⟨5, 5, 5⟩, ⟨4, 1, 3⟩)]
    ∧ (shapeRun none [(computedOptsEx, wideBBoxEx), (overwriteSizeOptsEx, unitBBoxEx)]).get? 1
        ≠ some none := by
  have h : shapeRun none [(computedOptsEx, wideBBoxEx), (overwriteSizeOptsEx, unitBBoxEx)]
      = [some (⟨8, 2, 6⟩, ⟨4, 1, 3⟩), some (⟨5, 5, 5⟩, ⟨4, 1, 3⟩)] := by
    norm_num [shapeRun, shapeStep, computedOptsEx, wideBBoxEx, overwriteSizeOptsEx, unitBBoxEx]
  refine ⟨h, ?_⟩
  rw [h]
  simp

/-- When every model's mesh file resolves, the collective loop runs to
completion and its attachments follow `attachRule`. -/
theorem collectiveLoop_all_files (hasFile : String → Bool) :
    ∀ (models : List SceneModel) (emitted : List String),
      (∀ m ∈ models, hasFile m.name = true) →
      collectiveLoop hasFile emitted models = (attachRule emitted models, true) := by
  intro models
  induction models with
  | nil => intro emitted _; rfl
  | cons m ms ih =>
    intro emitted h
    have hm : hasFile m.name = true := h m (by simp)
    have hrest : ∀ x ∈ ms, hasFile x.name = true := fun x hx => h x (by simp [hx])
    simp only [collectiveLoop, hm, if_true, ih (emitted ++ [m.name]) hrest, attachRule, nestCond]

/-- C3 (amended).  In the collective/scene pass an object's node is
created as a child of its resolved parent's node exactly when the
OBJECT ITSELF is of StaticModel kind, names a parent, and that parent
has already been emitted; otherwise it is attached directly under the
shared root (`prefabs.py` lines 170-176 test `uSceneModel.type`, the
current object's own type, not the parent's).  In particular the
`Cube`/`Cube.001` scenario nests `Cube.001` under `Cube`. -/
theorem collective_nesting_amended (hasFile : String → Bool)
    (doCollective doScene merge : Bool) (models : List SceneModel)
    (h : ∀ m ∈ models, hasFile m.name = true) :
    (runCollectivePass hasFile doCollective doScene merge models).attach = attachRule [] models
    ∧ (runCollectivePass (fun _ => true) true false false cubeModelsEx).attach
        = [("Cube", none), ("Cube.001", some "Cube")] := by
  constructor
  · simp [runCollectivePass, collectiveLoop_all_files hasFile models [] h]
  · decide

/-- Witness for C3 (amended), at the spec's own two-record scenario. -/
theorem collective_nesting_amended_witness :
    (runCollectivePass (fun _ => true) true false false cubeModelsEx).attach
      = attachRule [] cubeModelsEx :=
  (collective_nesting_amended (fun _ => true) true false false cubeModelsEx (by decide)).1

/-- Counterexample to C3 as stated: `Crate` (a StaticModel) declares
the already-emitted `Rig` as parent, and `Rig` is an AnimatedModel, not
a StaticGeometry-kind object — yet `Crate`'s node is created under
`Rig`'s node instead of under the shared root, because the source tests
the CHILD's type. -/
theorem collective_nesting_counterexample :
    (runCollectivePass (fun _ => true) true false false animModelsEx).attach
      = [("Rig", none), ("Crate", some "Rig")]
    ∧ animModelsEx.map SceneModel.type = ["AnimatedModel", "StaticModel"]
    ∧ "AnimatedModel" ≠ "StaticModel" := by
  decide

/-- When some model's mesh file is missing, the loop stops at the first
such model (the source executes `return`): only the models before it
are emitted and the completion flag is `false`. -/
theorem collectiveLoop_missing_file (hasFile : String → Bool) :
    ∀ (models : List SceneModel) (emitted : List String),
      (∃ m ∈ models, hasFile m.name = false) →
      collectiveLoop hasFile emitted models
        = (attachRule emitted (models.takeWhile (fun m => hasFile m.name)), false) := by
  intro models
  induction models with
  | nil =>
    intro emitted hbad
    rcases hbad with ⟨m, hm, _⟩
    cases hm
  | cons m ms ih =>
    intro emitted hbad
    by_cases hm : hasFile m.name = true
    · have hrest : ∃ x ∈ ms, hasFile x.name = false := by
        rcases hbad with ⟨m', hm', hbadm'⟩
        rcases List.mem_cons.mp hm' with rfl | hmem
        · rw [hm] at hbadm'; cases hbadm'
        · exact ⟨m', hmem, hbadm'⟩
      simp only [collectiveLoop, hm, if_true, ih (emitted ++ [m.name]) hrest,
        List.takeWhile_cons, attachRule, nestCond]
    · have hm' : hasFile m.name = false := by
        cases hf : hasFile m.name
        · rfl
        · exact absurd hf hm
      simp [collectiveLoop, hm', List.takeWhile_cons, attachRule]

/-- C7 (amended).  When a model's mesh file is missing from the
registry, `UrhoExportPrefabs` executes `return` (lines 153-155): the
WHOLE invocation aborts — only the models strictly before the first
missing one are processed, and neither the collective nor the scene
document is written (the write code at lines 540-551 is skipped). -/
theorem missing_model_aborts_invocation (hasFile : String → Bool)
    (doCollective doScene merge : Bool) (models : List SceneModel)
    (hbad : ∃ m ∈ models, hasFile m.name = false) :
    (runCollectivePass hasFile doCollective doScene merge models).attach
        = attachRule [] (models.takeWhile (fun m => hasFile m.name))
    ∧ (runCollectivePass hasFile doCollective doScene merge models).collectiveWritten = false
    ∧ (runCollectivePass hasFile doCollective doScene merge models).sceneWritten = false := by
  have h := collectiveLoop_missing_file hasFile models [] hbad
  simp [runCollectivePass, h]

/-- Witness for C7 (amended): with the first model's file missing and
both output documents requested, nothing is emitted and neither
document is written. -/
theorem missing_model_aborts_invocation_witness :
    (runCollectivePass (fun n => n == "Second") true true false missingModelsEx).attach
        = attachRule [] (missingModelsEx.takeWhile (fun m => (fun n => n == "Second") m.name))
    ∧ (runCollectivePass (fun n => n == "Second") true true false
        missingModelsEx).collectiveWritten = false
    ∧ (runCollectivePass (fun n => n == "Second") true true false
        missingModelsEx).sceneWritten = false :=
  missing_model_aborts_invocation (fun n => n == "Second") true true false missingModelsEx
    (by decide)

/-- Counterexample to C7 as stated: `First` has no mesh file, `Second`
does, and both the collective and the scene documents are requested;
the claim says `Second` is still processed and both documents are still
written, but the invocation aborts with nothing emitted and nothing
written. -/
theorem missing_model_counterexample :
    runCollectivePass (fun n => n == "Second") true true false missingModelsEx
      = ⟨[], false, false⟩ := by
  decide

theorem compIdsOf_cons (o : IdsOut) (out : List IdsOut) :
    compIdsOf (o :: out)
      = (o.bodyId.toList ++ o.shapeId.toList ++ o.navId.toList ++ [o.modelCompId])
        ++ compIdsOf out := by
  simp [compIdsOf]

/-- In the individual pass every emitted node carries ID `0x1000000`:
the counter is reset to the base right after each use, and it starts at
the base when no scene preamble consumed an ID. -/
theorem allocLoop_pass0_nodeId :
    ∀ (objs : List IdObj) (c : Nat),
      ∀ o ∈ (allocLoop 0 0x1000000 c objs).1, o.nodeId = 0x1000000 := by
  intro objs
  induction objs with
  | nil => intro c o ho; simp [allocLoop] at ho
  | cons a os ih =>
    intro c o ho
    simp only [allocLoop] at ho
    rcases List.mem_cons.mp ho with h | h
    · subst h; rfl
    · exact ih _ o h

/-- In the individual pass the component counter is reset to the base
when (and only when) a RigidBody is emitted, so every physics-enabled
object gets the same component IDs regardless of its position. -/
theorem allocLoop_pass0_physics :
    ∀ (objs : List IdObj) (n c : Nat),
      ∀ o ∈ (allocLoop 0 n c objs).1, o.physics = true →
        o.bodyId = some 0x1000000 ∧ o.shapeId = some (0x1000000 + 1)
        ∧ o.navId = (if o.navigable then some (0x1000000 + 2) else none)
        ∧ o.modelCompId = 0x1000000 + 2 + (if o.navigable then 1 else 0) := by
  intro objs
  induction objs with
  | nil => intro n c o ho; simp [allocLoop] at ho
  | cons a os ih =>
    intro n c o ho hphys
    simp only [allocLoop] at ho
    rcases List.mem_cons.mp ho with h | h
    · subst h
      simp only at hphys
      by_cases hn : a.navigable <;> simp [hphys, hn]
    · exact ih _ _ o h hphys

/-- In a collective/scene pass the node counter increments once per
object, yielding consecutive IDs. -/
theorem allocLoop_pass1_nodeIds :
    ∀ (objs : List IdObj) (n c : Nat),
      ((allocLoop 1 n c objs).1.map IdsOut.nodeId) = List.range' (n + 1) objs.length := by
  intro objs
  induction objs with
  | nil => intro n c; rfl
  | cons a os ih =>
    intro n c
    simp only [allocLoop, List.map_cons, List.length_cons]
    rw [List.range'_succ]
    refine congrArg₂ List.cons rfl ?_
    by_cases hp : a.physics <;> by_cases hn : a.navigable <;> simp [hp, hn, ih]

/-- In a collective/scene pass the component counter is never reset:
the component IDs of the whole invocation are consecutive from the
start value. -/
theorem allocLoop_pass1_compIds :
    ∀ (objs : List IdObj) (n c : Nat),
      compIdsOf (allocLoop 1 n c objs).1 = List.range' c (totalComps objs) := by
  intro objs
  induction objs with
  | nil => intro n c; rfl
  | cons a os ih =>
    intro n c
    have htc : totalComps (a :: os) = a.comps + totalComps os := by simp [totalComps]
    rw [htc]
    by_cases hp : a.physics <;> by_cases hn : a.navigable
    · have hcomps : a.comps = 4 := by simp [IdObj.comps, hp, hn]
      rw [hcomps]
      simp only [allocLoop, hp, hn, if_true, if_false]
      rw [compIdsOf_cons]
      simp only [Option.toList_some]
      norm_num
      rw [ih]
      have h1 : 4 + totalComps os = totalComps os + 4 := by omega
      rw [h1, ← List.range'_append_1 c 4 (totalComps os)]
      have h2 : List.range' c 4 = [c, c + 1, c + 2, c + 3] := rfl
      rw [h2]
      simp_arith
    · have hcomps : a.comps = 3 := by simp [IdObj.comps, hp, hn]
      rw [hcomps]
      simp only [allocLoop, hp, hn, if_true, if_false]
      rw [compIdsOf_cons]
      simp only [Option.toList_some]
      norm_num
      rw [ih]
      have h1 : 3 + totalComps os = totalComps os + 3 := by omega
      rw [h1, ← List.range'_append_1 c 3 (totalComps os)]
      have h2 : List.range' c 3 = [c, c + 1, c + 2] := rfl
      rw [h2]
      simp_arith
    · have hcomps : a.comps = 2 := by simp [IdObj.comps, hp, hn]
      rw [hcomps]
      simp only [allocLoop, hp, hn, if_true, if_false]
      rw [compIdsOf_cons]
      simp only [Option.toList_some]
      norm_num
      rw [ih]
      have h1 : 2 + totalComps os = totalComps os + 2 := by omega
      rw [h1, ← List.range'_append_1 c 2 (totalComps os)]
      have h2 : List.range' c 2 = [c, c + 1] := rfl
      rw [h2]
      simp_arith
    · have hcomps : a.comps = 1 := by simp [IdObj.comps, hp, hn]
      rw [hcomps]
      simp only [allocLoop, hp, hn, if_true, if_false]
      rw [compIdsOf_cons]
      simp only [Option.toList_some]
      norm_num
      rw [ih]
      have h1 : 1 + totalComps os = totalComps os + 1 := by omega
      rw [h1, ← List.range'_append_1 c 1 (totalComps os)]
      have h2 : List.range' c 1 = [c] := rfl
      rw [h2]
      simp_arith


/-- In the individual pass, when no object has physics enabled the
component counter is NEVER reset: IDs keep incrementing across objects
exactly as in the collective pass. -/
theorem allocLoop_pass0_noPhysics_compIds :
    ∀ (objs : List IdObj) (n c : Nat), (∀ o ∈ objs, o.physics = false) →
      compIdsOf (allocLoop 0 n c objs).1 = List.range' c (totalComps objs) := by
  intro objs
  induction objs with
  | nil => intro n c _; rfl
  | cons a os ih =>
    intro n c h
    have hp : a.physics = false := h a (by simp)
    have hrest : ∀ o ∈ os, o.physics = false := fun o ho => h o (by simp [ho])
    have htc : totalComps (a :: os) = a.comps + totalComps os := by simp [totalComps]
    rw [htc]
    by_cases hn : a.navigable
    · have hcomps : a.comps = 2 := by simp [IdObj.comps, hp, hn]
      rw [hcomps]
      simp only [allocLoop, hp, hn, if_true, if_false]
      rw [compIdsOf_cons]
      simp only [Option.toList_some]
      norm_num
      rw [ih _ _ hrest]
      have h1 : 2 + totalComps os = totalComps os + 2 := by omega
      rw [h1, ← List.range'_append_1 c 2 (totalComps os)]
      have h2 : List.range' c 2 = [c, c + 1] := rfl
      rw [h2]
      simp_arith
    · have hcomps : a.comps = 1 := by simp [IdObj.comps, hp, hn]
      rw [hcomps]
      simp only [allocLoop, hp, hn, if_true, if_false]
      rw [compIdsOf_cons]
      simp only [Option.toList_some]
      norm_num
      rw [ih _ _ hrest]
      have h1 : 1 + totalComps os = totalComps os + 1 := by omega
      rw [h1, ← List.range'_append_1 c 1 (totalComps os)]
      have h2 : List.range' c 1 = [c] := rfl
      rw [h2]
      simp_arith

/-- C4 (amended).  Both ID counters are seeded at `0x1000000`.  In the
individual pass every object's node ID is the base value (provided the
invocation does not also emit the scene preamble), and the COMPONENT
counter is reset to the base only when a RigidBody is emitted, so every
physics-enabled object gets identical component IDs regardless of
position, while for objects without physics the component counter keeps
incrementing across objects even in the individual pass.  The
collective/scene pass uses single continuously incrementing node and
component counters across all objects. -/
theorem id_counters_amended (objs : List IdObj) :
    (∀ o ∈ (allocIds false 0 objs).1, o.nodeId = 0x1000000)
    ∧ (∀ ds : Bool, ∀ o ∈ (allocIds ds 0 objs).1, o.physics = true →
        o.bodyId = some 0x1000000 ∧ o.shapeId = some (0x1000000 + 1)
        ∧ o.navId = (if o.navigable then some (0x1000000 + 2) else none)
        ∧ o.modelCompId = 0x1000000 + 2 + (if o.navigable then 1 else 0))
    ∧ (∀ ds : Bool, ((allocIds ds 1 objs).1.map IdsOut.nodeId)
        = List.range' ((if ds then 0x1000000 + 1 else 0x1000000) + 1) objs.length)
    ∧ (∀ ds : Bool, compIdsOf (allocIds ds 1 objs).1 = List.range' 0x1000000 (totalComps objs))
    ∧ ((∀ o ∈ objs, o.physics = false) →
        compIdsOf (allocIds false 0 objs).1 = List.range' 0x1000000 (totalComps objs)) := by
  refine ⟨?_, ?_, ?_, ?_, ?_⟩
  · intro o ho
    exact allocLoop_pass0_nodeId objs _ o ho
  · intro ds o ho hp
    exact allocLoop_pass0_physics objs _ _ o ho hp
  · intro ds
    cases ds <;> simp [allocIds, allocLoop_pass1_nodeIds]
  · intro ds
    cases ds <;> simp [allocIds, allocLoop_pass1_compIds]
  · intro h
    exact allocLoop_pass0_noPhysics_compIds objs _ _ h

/-- Counterexample to C4 as stated: in an individual pass over two
objects with physics disabled, the first object's model component gets
ID `0x1000000` and the second gets `0x1000001` — the component counter
is NOT reset at the start of each individual-prefab emission, so the
prefabs do not carry the same IDs regardless of position. -/
theorem id_counters_counterexample :
    ((allocIds false 0 [⟨false, false, false⟩, ⟨false, false, false⟩]).1.map IdsOut.modelCompId)
      = [0x1000000, 0x1000000 + 1]
    ∧ (0x1000000 : Nat) ≠ 0x1000000 + 1 := by
  decide

/-- Witness for C4 (amended) at a single physics+navigable object. -/
theorem id_counters_amended_witness :
    (⟨true, true, 0x1000000, some 0x1000000, some (0x1000000 + 1), some (0x1000000 + 2),
        0x1000000 + 3, none⟩ : IdsOut) ∈ (allocIds false 0 [idObjEx]).1
    ∧ (⟨true, true, 0x1000000, some 0x1000000, some (0x1000000 + 1), some (0x1000000 + 2),
        0x1000000 + 3, none⟩ : IdsOut).nodeId = 0x1000000 := by
  have hmem : (⟨true, true, 0x1000000, some 0x1000000, some (0x1000000 + 1), some (0x1000000 + 2),
      0x1000000 + 3, none⟩ : IdsOut) ∈ (allocIds false 0 [idObjEx]).1 := by decide
  exact ⟨hmem, (id_counters_amended [idObjEx]).1 _ hmem⟩

theorem rewriteOne_congr_pos (pos pos' rot scale : String) (x : XEl)
    (hx : ¬(x.tag = "attribute" ∧ x.name = "Position")) :
    rewriteOne pos' rot scale x = rewriteOne pos rot scale x := by
  simp only [rewriteOne, if_neg hx]

theorem rewriteOne_congr_rot (pos rot rot' scale : String) (x : XEl)
    (hx : ¬(x.tag = "attribute" ∧ x.name = "Rotation")) :
    rewriteOne pos rot' scale x = rewriteOne pos rot scale x := by
  by_cases h1 : x.tag = "attribute" ∧ x.name = "Position" <;> simp [rewriteOne, h1, hx]

theorem rewriteOne_congr_scale (pos rot scale scale' : String) (x : XEl)
    (hx : ¬(x.tag = "attribute" ∧ x.name = "Scale")) :
    rewriteOne pos rot scale' x = rewriteOne pos rot scale x := by
  by_cases h1 : x.tag = "attribute" ∧ x.name = "Position" <;>
    by_cases h2 : x.tag = "attribute" ∧ x.name = "Rotation" <;>
      simp [rewriteOne, h1, h2, hx]

theorem countAttr_cons_of_match (nm : String) (el : XEl) (rest : List XEl)
    (h : el.tag = "attribute" ∧ el.name = nm) :
    countAttr nm (el :: rest) = countAttr nm rest + 1 := by
  simp only [countAttr, List.countP_cons]
  simp [h.1, h.2]

theorem countAttr_cons_le (nm : String) (el : XEl) (rest : List XEl) :
    countAttr nm rest ≤ countAttr nm (el :: rest) := by
  simp only [countAttr, List.countP_cons]
  omega

theorem setTransforms_spec :
    ∀ (l : List XEl) (pos rot scale : String),
      countAttr "Position" l ≤ 1 → countAttr "Rotation" l ≤ 1 → countAttr "Scale" l ≤ 1 →
      setTransforms pos rot scale l
        = (l.map (rewriteOne pos rot scale),
           (if hasAttr "Position" l then "" else pos),
           (if hasAttr "Rotation" l then "" else rot),
           (if hasAttr "Scale" l then "" else scale)) := by
  intro l
  induction l with
  | nil => intro pos rot scale _ _ _; simp [setTransforms, hasAttr]
  | cons el rest ih =>
    intro pos rot scale hP hR hS
    have hPle := countAttr_cons_le "Position" el rest
    have hRle := countAttr_cons_le "Rotation" el rest
    have hSle := countAttr_cons_le "Scale" el rest
    by_cases h1 : el.tag = "attribute" ∧ el.name = "Position"
    · have hPrest : countAttr "Position" rest = 0 := by
        have h := countAttr_cons_of_match "Position" el rest h1
        omega
      have hnone : ∀ x ∈ rest, ¬(x.tag = "attribute" ∧ x.name = "Position") := by
        intro x hx
        have hz : ∀ x ∈ rest,
            ¬((x.tag == "attribute" && x.name == "Position") = true) :=
          List.countP_eq_zero.mp hPrest
        have := hz x hx
        simpa using this
      simp only [setTransforms, if_pos h1]
      rw [ih "" rot scale (by omega) (by omega) (by omega)]
      have hmap : rest.map (rewriteOne "" rot scale) = rest.map (rewriteOne pos rot scale) :=
        List.map_congr_left (fun x hx => rewriteOne_congr_pos pos "" rot scale x (hnone x hx))
      have hPfalse : hasAttr "Position" rest = false := by
        rw [hasAttr, List.any_eq_false]
        intro x hx
        simpa using hnone x hx
      have hRcons : hasAttr "Rotation" (el :: rest) = hasAttr "Rotation" rest := by
        simp [hasAttr, h1.2]
      have hScons : hasAttr "Scale" (el :: rest) = hasAttr "Scale" rest := by
        simp [hasAttr, h1.2]
      have hPcons : hasAttr "Position" (el :: rest) = true := by
        simp [hasAttr, h1.1, h1.2]
      rw [hmap, hPfalse, hRcons, hScons, hPcons]
      simp [rewriteOne, h1]
    · by_cases h2 : el.tag = "attribute" ∧ el.name = "Rotation"
      · have hRrest : countAttr "Rotation" rest = 0 := by
          have h := countAttr_cons_of_match "Rotation" el rest h2
          omega
        have hnone : ∀ x ∈ rest, ¬(x.tag = "attribute" ∧ x.name = "Rotation") := by
          intro x hx
          have hz : ∀ x ∈ rest,
              ¬((x.tag == "attribute" && x.name == "Rotation") = true) :=
            List.countP_eq_zero.mp hRrest
          simpa using hz x hx
        simp only [setTransforms, if_neg h1, if_pos h2]
        rw [ih pos "" scale (by omega) (by omega) (by omega)]
        have hmap : rest.map (rewriteOne pos "" scale) = rest.map (rewriteOne pos rot scale) :=
          List.map_congr_left (fun x hx => rewriteOne_congr_rot pos rot "" scale x (hnone x hx))
        have hRfalse : hasAttr "Rotation" rest = false := by
          rw [hasAttr, List.any_eq_false]
          intro x hx
          simpa using hnone x hx
        have hPcons : hasAttr "Position" (el :: rest) = hasAttr "Position" rest := by
          simp [hasAttr, h2.2]
        have hScons : hasAttr "Scale" (el :: rest) = hasAttr "Scale" rest := by
          simp [hasAttr, h2.2]
        have hRcons : hasAttr "Rotation" (el :: rest) = true := by
          simp [hasAttr, h2.1, h2.2]
        rw [hmap, hRfalse, hPcons, hScons, hRcons]
        simp [rewriteOne, h1, h2]
      · by_cases h3 : el.tag = "attribute" ∧ el.name = "Scale"
        · have hSrest : countAttr "Scale" rest = 0 := by
            have h := countAttr_cons_of_match "Scale" el rest h3
            omega
          have hnone : ∀ x ∈ rest, ¬(x.tag = "attribute" ∧ x.name = "Scale") := by
            intro x hx
            have hz : ∀ x ∈ rest,
                ¬((x.tag == "attribute" && x.name == "Scale") = true) :=
              List.countP_eq_zero.mp hSrest
            simpa using hz x hx
          simp only [setTransforms, if_neg h1, if_neg h2, if_pos h3]
          rw [ih pos rot "" (by omega) (by omega) (by omega)]
          have hmap : rest.map (rewriteOne pos rot "") = rest.map (rewriteOne pos rot scale) :=
            List.map_congr_left
              (fun x hx => rewriteOne_congr_scale pos rot scale "" x (hnone x hx))
          have hSfalse : hasAttr "Scale" rest = false := by
            rw [hasAttr, List.any_eq_false]
            intro x hx
            simpa using hnone x hx
          have hPcons : hasAttr "Position" (el :: rest) = hasAttr "Position" rest := by
            simp [hasAttr, h3.2]
          have hRcons : hasAttr "Rotation" (el :: rest) = hasAttr "Rotation" rest := by
            simp [hasAttr, h3.2]
          have hScons : hasAttr "Scale" (el :: rest) = true := by
            simp [hasAttr, h3.1, h3.2]
          rw [hmap, hSfalse, hPcons, hRcons, hScons]
          simp [rewriteOne, h1, h2, h3]
        · simp only [setTransforms, if_neg h1, if_neg h2, if_neg h3]
          rw [ih pos rot scale (by omega) (by omega) (by omega)]
          have hPcons : hasAttr "Position" (el :: rest) = hasAttr "Position" rest := by
            simp only [hasAttr, List.any_cons]
            have : ¬((el.tag == "attribute" && el.name == "Position") = true) := by
              simpa using h1
            simp [this]
          have hRcons : hasAttr "Rotation" (el :: rest) = hasAttr "Rotation" rest := by
            simp only [hasAttr, List.any_cons]
            have : ¬((el.tag == "attribute" && el.name == "Rotation") = true) := by
              simpa using h2
            simp [this]
          have hScons : hasAttr "Scale" (el :: rest) = hasAttr "Scale" rest := by
            simp only [hasAttr, List.any_cons]
            have : ¬((el.tag == "attribute" && el.name == "Scale") = true) := by
              simpa using h3
            simp [this]
          rw [hPcons, hRcons, hScons]
          simp [rewriteOne, h1, h2, h3]


/-- C8.  In the scene-from-prefabs flow, for a re-read prefab root
with at most one Position/Rotation/Scale attribute child (as emitted
prefabs have) and nonempty computed transform strings (the `'{:g} {:g}
{:g}'` formats are never empty), every existing transform attribute is
rewritten in place (all other children are untouched) and each of the
three that is absent is appended as a new attribute element at the end,
in the order Position, Rotation, Scale. -/
theorem transforms_rewrite_or_append (children : List XEl) (pos rot scale : String)
    (hP : countAttr "Position" children ≤ 1) (hR : countAttr "Rotation" children ≤ 1)
    (hS : countAttr "Scale" children ≤ 1)
    (hpos : pos ≠ "") (hrot : rot ≠ "") (hscale : scale ≠ "") :
    applyTransforms children pos rot scale
      = children.map (rewriteOne pos rot scale)
        ++ (if hasAttr "Position" children then [] else [⟨"attribute", "Position", pos⟩])
        ++ (if hasAttr "Rotation" children then [] else [⟨"attribute", "Rotation", rot⟩])
        ++ (if hasAttr "Scale" children then [] else [⟨"attribute", "Scale", scale⟩]) := by
  unfold applyTransforms
  rw [setTransforms_spec children pos rot scale hP hR hS]
  by_cases p1 : hasAttr "Position" children <;> by_cases p2 : hasAttr "Rotation" children <;>
    by_cases p3 : hasAttr "Scale" children <;>
      simp [p1, p2, p3, hpos, hrot, hscale]

/-- Witness for C8: the spec's scenario — a prefab root lacking a
Position attribute, placed with computed position `"1 2 3"`, gains an
appended `Position="1 2 3"` attribute (here Rotation and Scale are
absent too and also get appended), and no existing child is
overwritten. -/
theorem transforms_rewrite_or_append_witness :
    applyTransforms prefabChildrenEx "1 2 3" "-0 -0 -0" "1 1 1"
      = prefabChildrenEx.map (rewriteOne "1 2 3" "-0 -0 -0" "1 1 1")
        ++ (if hasAttr "Position" prefabChildrenEx then []
            else [⟨"attribute", "Position", "1 2 3"⟩])
        ++ (if hasAttr "Rotation" prefabChildrenEx then []
            else [⟨"attribute", "Rotation", "-0 -0 -0"⟩])
        ++ (if hasAttr "Scale" prefabChildrenEx then []
            else [⟨"attribute", "Scale", "1 1 1"⟩])
    ∧ applyTransforms prefabChildrenEx "1 2 3" "-0 -0 -0" "1 1 1"
      = [⟨"attribute", "Name", "Cube"⟩, ⟨"component", "StaticModel", ""⟩,
         ⟨"attribute", "Position", "1 2 3"⟩, ⟨"attribute", "Rotation", "-0 -0 -0"⟩,
         ⟨"attribute", "Scale", "1 1 1"⟩] :=
  ⟨transforms_rewrite_or_append prefabChildrenEx "1 2 3" "-0 -0 -0" "1 1 1"
      (by decide) (by decide) (by decide) (by decide) (by decide) (by decide), by decide⟩


theorem addN_nodes_mem (t : Tree) (x y : String) :
    y ∈ (addN t x).nodes ↔ y ∈ t.nodes ∨ y = x := by
  by_cases h : x ∈ t.nodes
  · simp only [addN, if_pos h]
    constructor
    · exact Or.inl
    · rintro (hy | rfl)
      · exact hy
      · exact h
  · simp [addN, h]

theorem addN_nodes_nodup (t : Tree) (x : String) (h : t.nodes.Nodup) :
    (addN t x).nodes.Nodup := by
  by_cases hx : x ∈ t.nodes
  · simpa [addN, hx] using h
  · simp only [addN, if_neg hx]
    rw [List.nodup_append]
    refine ⟨h, List.nodup_singleton x, ?_⟩
    intro a ha hax
    rw [List.mem_singleton] at hax
    subst hax
    exact hx ha

theorem push_none (t : Tree) (name : String) :
    t.push (name, none) = addN t name := by
  simp only [Tree.push, addN]
  by_cases h : name ∈ t.nodes <;> simp [h]

theorem push_self (t : Tree) (name : String) :
    t.push (name, some name) = addN t name := by
  simp only [Tree.push, addN]
  by_cases h : name ∈ t.nodes <;> simp [h]

theorem push_real (t : Tree) (name p : String) (hne : p ≠ name) :
    t.push (name, some p) =
      ⟨(addN (addN t name) p).nodes,
       fun n => if n = name then some p else t.parent n,
       fun n => if n = p then t.children p ++ [name] else t.children n⟩ := by
  simp only [Tree.push, addN]
  by_cases h1 : name ∈ t.nodes <;> by_cases h2 : p ∈ t.nodes <;>
    simp [h1, h2, hne]


theorem push_nodes_mem (t : Tree) (pr : String × Option String) (x : String) :
    x ∈ (t.push pr).nodes ↔ x ∈ t.nodes ∨ x = pr.1 ∨ pr.2 = some x := by
  obtain ⟨name, po⟩ := pr
  cases po with
  | none =>
    rw [push_none, addN_nodes_mem]
    simp
  | some p =>
    by_cases hp : p = name
    · subst hp
      rw [push_self, addN_nodes_mem]
      constructor
      · rintro (h | rfl)
        · exact Or.inl h
        · exact Or.inr (Or.inl rfl)
      · rintro (h | rfl | h)
        · exact Or.inl h
        · exact Or.inr rfl
        · simp only [Option.some.injEq] at h
          exact Or.inr h.symm
    · rw [push_real t name p hp]
      simp only
      rw [addN_nodes_mem, addN_nodes_mem]
      constructor
      · rintro ((h | rfl) | rfl)
        · exact Or.inl h
        · exact Or.inr (Or.inl rfl)
        · exact Or.inr (Or.inr rfl)
      · rintro (h | rfl | h)
        · exact Or.inl (Or.inl h)
        · exact Or.inl (Or.inr rfl)
        · simp only [Option.some.injEq] at h
          exact Or.inr h.symm

theorem push_nodes_nodup (t : Tree) (pr : String × Option String) (h : t.nodes.Nodup) :
    (t.push pr).nodes.Nodup := by
  obtain ⟨name, po⟩ := pr
  cases po with
  | none => rw [push_none]; exact addN_nodes_nodup t name h
  | some p =>
    by_cases hp : p = name
    · subst hp; rw [push_self]; exact addN_nodes_nodup t p h
    · rw [push_real t name p hp]
      exact addN_nodes_nodup _ p (addN_nodes_nodup t name h)

theorem foldl_push_nodes_mem :
    ∀ (l : List (String × Option String)) (t : Tree) (x : String),
      x ∈ (l.foldl Tree.push t).nodes
        ↔ x ∈ t.nodes ∨ ∃ pr ∈ l, pr.1 = x ∨ pr.2 = some x := by
  intro l
  induction l with
  | nil => intro t x; simp
  | cons pr rest ih =>
    intro t x
    rw [List.foldl_cons, ih, push_nodes_mem]
    simp only [List.mem_cons]
    constructor
    · rintro ((h | rfl | h) | ⟨q, hq, hx⟩)
      · exact Or.inl h
      · exact Or.inr ⟨pr, Or.inl rfl, Or.inl rfl⟩
      · exact Or.inr ⟨pr, Or.inl rfl, Or.inr h⟩
      · exact Or.inr ⟨q, Or.inr hq, hx⟩
    · rintro (h | ⟨q, (rfl | hq), hx⟩)
      · exact Or.inl (Or.inl h)
      · rcases hx with rfl | hx
        · exact Or.inl (Or.inr (Or.inl rfl))
        · exact Or.inl (Or.inr (Or.inr hx))
      · exact Or.inr ⟨q, hq, hx⟩

theorem foldl_push_nodes_nodup :
    ∀ (l : List (String × Option String)) (t : Tree),
      t.nodes.Nodup → (l.foldl Tree.push t).nodes.Nodup := by
  intro l
  induction l with
  | nil => intro t h; exact h
  | cons pr rest ih =>
    intro t h
    rw [List.foldl_cons]
    exact ih _ (push_nodes_nodup t pr h)

theorem foldl_push_children :
    ∀ (l : List (String × Option String)) (t : Tree) (q : String),
      (l.foldl Tree.push t).children q
        = t.children q ++ (l.filter (fun pr => pr.2 == some q && pr.1 != q)).map Prod.fst := by
  intro l
  induction l with
  | nil => intro t q; simp
  | cons pr rest ih =>
    intro t q
    rw [List.foldl_cons, ih]
    obtain ⟨name, po⟩ := pr
    cases po with
    | none =>
      rw [push_none]
      simp [addN]
    | some p =>
      by_cases hp : p = name
      · subst hp
        rw [push_self]
        by_cases hq : p = q
        · subst hq
          simp [addN]
        · simp [addN, hq]
      · rw [push_real t name p hp]
        by_cases hq : p = q
        · subst hq
          have hnq : (name != p) = true := by
            simp only [bne_iff_ne, ne_eq]
            exact fun h => hp h.symm
          simp [List.filter_cons, hnq]
        · have : (some p == some q) = false := by
            simp [hq]
          simp [this, Ne.symm hq]


theorem addN_wf (t : Tree) (rank : String → Nat) (x : String) (hw : TreeWF t rank) :
    TreeWF (addN t x) rank := by
  refine ⟨addN_nodes_nodup t x hw.nodes_nodup, ?_, ?_, hw.mem_children_iff,
    hw.children_nodup, hw.rank_lt⟩
  · intro n p hp
    obtain ⟨h1, h2⟩ := hw.parent_mem n p hp
    exact ⟨(addN_nodes_mem t x n).mpr (Or.inl h1), (addN_nodes_mem t x p).mpr (Or.inl h2)⟩
  · intro p c hc
    obtain ⟨h1, h2⟩ := hw.children_mem p c hc
    exact ⟨(addN_nodes_mem t x c).mpr (Or.inl h1), (addN_nodes_mem t x p).mpr (Or.inl h2)⟩

theorem push_wf (t : Tree) (rank : String → Nat) (name : String) (po : Option String)
    (hw : TreeWF t rank)
    (hnew : ∀ p, po = some p → p ≠ name → t.parent name = none)
    (hrank : ∀ p, po = some p → p ≠ name → rank p < rank name) :
    TreeWF (t.push (name, po)) rank := by
  cases po with
  | none => rw [push_none]; exact addN_wf t rank name hw
  | some p =>
    by_cases hp : p = name
    · subst hp; rw [push_self]; exact addN_wf t rank p hw
    · rw [push_real t name p hp]
      have hpar : t.parent name = none := hnew p rfl hp
      have hw2 : TreeWF (addN (addN t name) p) rank := addN_wf _ rank p (addN_wf _ rank name hw)
      have hnamem : name ∈ (addN (addN t name) p).nodes := by
        rw [addN_nodes_mem, addN_nodes_mem]
        exact Or.inl (Or.inr rfl)
      have hpmem : p ∈ (addN (addN t name) p).nodes := by
        rw [addN_nodes_mem]
        exact Or.inr rfl
      have hlift : ∀ y, y ∈ t.nodes → y ∈ (addN (addN t name) p).nodes := by
        intro y hy
        rw [addN_nodes_mem, addN_nodes_mem]
        exact Or.inl (Or.inl hy)
      refine ⟨hw2.nodes_nodup, ?_, ?_, ?_, ?_, ?_⟩
      · intro n q hq
        simp only at hq
        by_cases hn : n = name
        · rw [if_pos hn] at hq
          obtain rfl := Option.some.inj hq
          exact ⟨hn ▸ hnamem, hpmem⟩
        · rw [if_neg hn] at hq
          obtain ⟨h1, h2⟩ := hw.parent_mem n q hq
          exact ⟨hlift n h1, hlift q h2⟩
      · intro q c hc
        simp only at hc
        by_cases hqp : q = p
        · rw [if_pos hqp] at hc
          rw [List.mem_append, List.mem_singleton] at hc
          rcases hc with hc | rfl
          · obtain ⟨h1, h2⟩ := hw.children_mem p c hc
            exact ⟨hlift c h1, hqp ▸ hlift p h2⟩
          · exact ⟨hnamem, hqp ▸ hpmem⟩
        · rw [if_neg hqp] at hc
          obtain ⟨h1, h2⟩ := hw.children_mem q c hc
          exact ⟨hlift c h1, hlift q h2⟩
      · intro q c
        simp only
        by_cases hcn : c = name
        · subst hcn
          rw [if_pos rfl]
          by_cases hqp : q = p
          · subst hqp
            rw [if_pos rfl, List.mem_append, List.mem_singleton]
            simp only [or_true, true_iff]
          · rw [if_neg hqp]
            constructor
            · intro hmem
              have := (hw.mem_children_iff q c).mp hmem
              rw [hpar] at this
              cases this
            · intro hsome
              exact absurd (Option.some.inj hsome).symm hqp
        · rw [if_neg hcn]
          by_cases hqp : q = p
          · subst hqp
            rw [if_pos rfl, List.mem_append, List.mem_singleton]
            rw [hw.mem_children_iff q c]
            constructor
            · rintro (h | rfl)
              · exact h
              · exact absurd rfl hcn
            · exact Or.inl
          · rw [if_neg hqp]
            exact hw.mem_children_iff q c
      · intro q
        simp only
        by_cases hqp : q = p
        · rw [if_pos hqp]
          rw [List.nodup_append]
          refine ⟨hw.children_nodup p, List.nodup_singleton name, ?_⟩
          intro a ha hax
          rw [List.mem_singleton] at hax
          subst hax
          have := (hw.mem_children_iff p a).mp ha
          rw [hpar] at this
          cases this
        · rw [if_neg hqp]
          exact hw.children_nodup q
      · intro n q hq
        simp only at hq
        by_cases hn : n = name
        · rw [if_pos hn] at hq
          have hpq : p = q := Option.some.inj hq
          rw [hn, ← hpq]
          exact hrank p rfl hp
        · rw [if_neg hn] at hq
          exact hw.rank_lt n q hq


theorem push_parent_none (t : Tree) (name : String) :
    (t.push (name, none)).parent = t.parent := by
  rw [push_none]; rfl

theorem push_parent_self (t : Tree) (name : String) :
    (t.push (name, some name)).parent = t.parent := by
  rw [push_self]; rfl

theorem push_parent_real (t : Tree) (name p : String) (hp : p ≠ name) (n : String) :
    (t.push (name, some p)).parent n = if n = name then some p else t.parent n := by
  rw [push_real t name p hp]

theorem foldl_push_wf (rank : String → Nat) :
    ∀ (l : List (String × Option String)) (t : Tree),
      TreeWF t rank →
      (∀ n, (t.parent n).isSome → l.countP (realParentPush n) = 0) →
      (∀ n, l.countP (realParentPush n) ≤ 1) →
      (∀ pr ∈ l, pairRankOk rank pr = true) →
      TreeWF (l.foldl Tree.push t) rank := by
  intro l
  induction l with
  | nil => intro t hw _ _ _; exact hw
  | cons pr rest ih =>
    intro t hw hz ho hr
    rw [List.foldl_cons]
    obtain ⟨name, po⟩ := pr
    have hw' : TreeWF (t.push (name, po)) rank := by
      apply push_wf t rank name po hw
      · intro p hpo hpne
        subst hpo
        by_contra habs
        have hsome : (t.parent name).isSome := by
          cases hpar : t.parent name
          · exact absurd hpar habs
          · simp
        have h0 := hz name hsome
        rw [List.countP_cons] at h0
        have hpr : realParentPush name (name, some p) = true := by
          simp [realParentPush, hpne]
        rw [hpr] at h0
        simp at h0
      · intro p hpo hpne
        subst hpo
        have hok := hr (name, some p) (by simp)
        simp only [pairRankOk] at hok
        rw [Bool.or_eq_true] at hok
        rcases hok with h | h
        · exact absurd (by simpa using h) hpne
        · simpa using h
    apply ih (t.push (name, po)) hw'
    · intro n hns
      cases po with
      | none =>
        rw [push_parent_none] at hns
        have h0 := hz n hns
        rw [List.countP_cons] at h0
        omega
      | some p =>
        by_cases hp : p = name
        · subst hp
          rw [push_parent_self] at hns
          have h0 := hz n hns
          rw [List.countP_cons] at h0
          omega
        · rw [push_parent_real t name p hp] at hns
          by_cases hn : n = name
          · rw [hn]
            have h1 := ho name
            rw [List.countP_cons] at h1
            have hpr : realParentPush name (name, some p) = true := by
              simp [realParentPush, hp]
            rw [hpr] at h1
            have h2 : List.countP (realParentPush name) rest + 1 ≤ 1 := by
              simpa using h1
            omega
          · rw [if_neg hn] at hns
            have h0 := hz n hns
            rw [List.countP_cons] at h0
            omega
    · intro n
      have h1 := ho n
      rw [List.countP_cons] at h1
      omega
    · intro q hq
      exact hr q (by simp [hq])


theorem flatMap_congr_mem {α β : Type} (l : List α) (f g : α → List β)
    (h : ∀ a ∈ l, f a = g a) : l.flatMap f = l.flatMap g := by
  induction l with
  | nil => rfl
  | cons a l ih =>
    simp only [List.flatMap_cons]
    rw [h a (List.mem_cons_self a l), ih (fun x hx => h x (List.mem_cons_of_mem a hx))]

theorem desc_rank_le (t : Tree) (rank : String → Nat) (hw : TreeWF t rank) {a b : String}
    (h : desc t a b) : rank a ≤ rank b := by
  induction h with
  | refl => exact Nat.le_refl _
  | tail _ hstep ih => exact Nat.le_of_lt (Nat.lt_of_le_of_lt ih (hw.rank_lt _ _ hstep))

theorem strictAnc_rank_lt (t : Tree) (rank : String → Nat) (hw : TreeWF t rank) {a b : String}
    (h : strictAnc t a b) : rank a < rank b := by
  induction h with
  | single hstep => exact hw.rank_lt _ _ hstep
  | tail _ hstep ih => exact Nat.lt_trans ih (hw.rank_lt _ _ hstep)

theorem desc_mem (t : Tree) (rank : String → Nat) (hw : TreeWF t rank) {a b : String}
    (ha : a ∈ t.nodes) (h : desc t a b) : b ∈ t.nodes := by
  induction h with
  | refl => exact ha
  | tail _ hstep _ => exact (hw.parent_mem _ _ hstep).1

theorem desc_comparable (t : Tree) {a b m : String} (h₁ : desc t a m) (h₂ : desc t b m) :
    desc t a b ∨ desc t b a := by
  induction h₁ with
  | refl => exact Or.inr h₂
  | tail h₁' hstep ih =>
    rename_i c m'
    rcases Relation.ReflTransGen.cases_tail h₂ with rfl | ⟨d, hbd, hdm⟩
    · exact Or.inl (h₁'.tail hstep)
    · have hdc : c = d := by
        rw [parentStep] at hstep hdm
        rw [hstep] at hdm
        exact Option.some.inj hdm
      exact ih (hdc ▸ hbd)

theorem desc_child_child (t : Tree) (rank : String → Nat) (hw : TreeWF t rank)
    {n c₁ c₂ : String} (h₁ : t.parent c₁ = some n) (h₂ : t.parent c₂ = some n)
    (h : desc t c₁ c₂) : c₁ = c₂ := by
  rcases Relation.ReflTransGen.cases_tail h with rfl | ⟨d, hcd, hstep⟩
  · rfl
  · have hd : d = n := by
      rw [parentStep] at hstep
      rw [h₂] at hstep
      exact (Option.some.inj hstep).symm
    subst hd
    have ha := desc_rank_le t rank hw hcd
    have hb := hw.rank_lt c₁ d h₁
    omega

theorem root_unique (t : Tree) (rank : String → Nat) (_hw : TreeWF t rank)
    {r₁ r₂ m : String} (h₁ : t.parent r₁ = none) (h₂ : t.parent r₂ = none)
    (hd₁ : desc t r₁ m) (hd₂ : desc t r₂ m) : r₁ = r₂ := by
  rcases desc_comparable t hd₁ hd₂ with h | h
  · rcases Relation.ReflTransGen.cases_tail h with rfl | ⟨d, _, hstep⟩
    · rfl
    · rw [parentStep, h₂] at hstep
      cases hstep
  · rcases Relation.ReflTransGen.cases_tail h with rfl | ⟨d, _, hstep⟩
    · rfl
    · rw [parentStep, h₁] at hstep
      cases hstep

theorem root_exists (t : Tree) (rank : String → Nat) (hw : TreeWF t rank) :
    ∀ (K : Nat) (m : String), rank m < K → m ∈ t.nodes →
      ∃ r, r ∈ t.nodes ∧ t.parent r = none ∧ desc t r m := by
  intro K
  induction K with
  | zero => intro m h; omega
  | succ K ih =>
    intro m hK hm
    cases hpar : t.parent m with
    | none => exact ⟨m, hm, hpar, Relation.ReflTransGen.refl⟩
    | some p =>
      have hp : p ∈ t.nodes := (hw.parent_mem m p hpar).2
      have hrk : rank p < rank m := hw.rank_lt m p hpar
      obtain ⟨r, hr, hrn, hrd⟩ := ih p (by omega) hp
      exact ⟨r, hr, hrn, hrd.tail hpar⟩

theorem measure_lt_of_child (t : Tree) (rank : String → Nat) (hw : TreeWF t rank)
    {p c : String} (hc : c ∈ t.children p) :
    t.measureOf rank c < t.measureOf rank p := by
  have hpar : t.parent c = some p := (hw.mem_children_iff p c).mp hc
  have hrank : rank p < rank c := hw.rank_lt c p hpar
  have hcm : c ∈ t.nodes := (hw.children_mem p c hc).1
  simp only [Tree.measureOf]
  have hsub : List.Sublist (t.nodes.filter (fun m => decide (rank c < rank m)))
      (t.nodes.filter (fun m => decide (rank p < rank m))) := by
    apply List.monotone_filter_right
    intro a ha
    simp only [decide_eq_true_eq] at *
    omega
  have hlen := hsub.length_le
  rcases Nat.lt_or_ge (t.nodes.filter (fun m => decide (rank c < rank m))).length
      (t.nodes.filter (fun m => decide (rank p < rank m))).length with h | h
  · exact h
  · exfalso
    have heq := hsub.eq_of_length (Nat.le_antisymm hlen h)
    have hcp : c ∈ t.nodes.filter (fun m => decide (rank p < rank m)) :=
      List.mem_filter.mpr ⟨hcm, by simp [hrank]⟩
    rw [← heq] at hcp
    have := (List.mem_filter.mp hcp).2
    simp at this

theorem measure_lt_length (t : Tree) (rank : String → Nat) {n : String} (hn : n ∈ t.nodes) :
    t.measureOf rank n < t.nodes.length := by
  simp only [Tree.measureOf]
  have hsub : List.Sublist (t.nodes.filter (fun m => decide (rank n < rank m))) t.nodes :=
    t.nodes.filter_sublist
  rcases Nat.lt_or_ge (t.nodes.filter (fun m => decide (rank n < rank m))).length
      t.nodes.length with h | h
  · exact h
  · exfalso
    have heq := hsub.eq_of_length (Nat.le_antisymm hsub.length_le h)
    have : n ∈ t.nodes.filter (fun m => decide (rank n < rank m)) := by
      rw [heq]; exact hn
    have := (List.mem_filter.mp this).2
    simp at this


theorem toListFrom_spec (t : Tree) (rank : String → Nat) (hw : TreeWF t rank) :
    ∀ (K : Nat) (n : String), n ∈ t.nodes → t.measureOf rank n < K →
      ∀ fuel, t.measureOf rank n < fuel →
        ((∀ fuel', t.measureOf rank n < fuel' →
            t.toListFrom fuel n = t.toListFrom fuel' n)
         ∧ (∀ m, m ∈ t.toListFrom fuel n ↔ desc t n m)
         ∧ (t.toListFrom fuel n).Nodup) := by
  intro K
  induction K with
  | zero => intro n _ h; omega
  | succ K ih =>
    intro n hn hK fuel hfuel
    obtain ⟨f, rfl⟩ : ∃ f, fuel = f + 1 := ⟨fuel - 1, by omega⟩
    have hchild : ∀ c ∈ t.children n,
        c ∈ t.nodes ∧ t.measureOf rank c < K ∧ t.measureOf rank c < f := by
      intro c hc
      have h1 := measure_lt_of_child t rank hw hc
      exact ⟨(hw.children_mem n c hc).1, by omega, by omega⟩
    have hmemc : ∀ c ∈ t.children n, ∀ m, m ∈ t.toListFrom f c ↔ desc t c m := by
      intro c hc
      exact (ih c (hchild c hc).1 (hchild c hc).2.1 f (hchild c hc).2.2).2.1
    have hndc : ∀ c ∈ t.children n, (t.toListFrom f c).Nodup := by
      intro c hc
      exact (ih c (hchild c hc).1 (hchild c hc).2.1 f (hchild c hc).2.2).2.2
    have hmem : ∀ m, m ∈ t.toListFrom (f + 1) n ↔ desc t n m := by
      intro m
      simp only [Tree.toListFrom, List.mem_cons, List.mem_flatMap]
      constructor
      · rintro (rfl | ⟨c, hc, hmc⟩)
        · exact Relation.ReflTransGen.refl
        · exact Relation.ReflTransGen.head ((hw.mem_children_iff n c).mp hc)
            ((hmemc c hc m).mp hmc)
      · intro hd
        rcases Relation.ReflTransGen.cases_head hd with rfl | ⟨c, hstep, hdm⟩
        · exact Or.inl rfl
        · have hc : c ∈ t.children n := (hw.mem_children_iff n c).mpr hstep
          exact Or.inr ⟨c, hc, (hmemc c hc m).mpr hdm⟩
    have hstab : ∀ fuel', t.measureOf rank n < fuel' →
        t.toListFrom (f + 1) n = t.toListFrom fuel' n := by
      intro fuel' hf'
      obtain ⟨f', rfl⟩ : ∃ g, fuel' = g + 1 := ⟨fuel' - 1, by omega⟩
      simp only [Tree.toListFrom]
      congr 1
      apply flatMap_congr_mem
      intro c hc
      have hμ := measure_lt_of_child t rank hw hc
      have h1 := (ih c (hchild c hc).1 (hchild c hc).2.1 f (hchild c hc).2.2).1
      exact h1 f' (by omega)
    have hnd : (t.toListFrom (f + 1) n).Nodup := by
      simp only [Tree.toListFrom]
      rw [List.nodup_cons]
      constructor
      · intro hmem2
        rw [List.mem_flatMap] at hmem2
        obtain ⟨c, hc, hmc⟩ := hmem2
        have hdc : desc t c n := (hmemc c hc n).mp hmc
        have h1 := desc_rank_le t rank hw hdc
        have hpar := (hw.mem_children_iff n c).mp hc
        have h2 := hw.rank_lt c n hpar
        omega
      · rw [List.nodup_flatMap]
        refine ⟨hndc, ?_⟩
        have hnodup := hw.children_nodup n
        apply List.Pairwise.imp_of_mem ?_ hnodup
        intro c₁ c₂ hc₁ hc₂ hne
        intro a ha₁ ha₂
        have hd₁ : desc t c₁ a := (hmemc c₁ hc₁ a).mp ha₁
        have hd₂ : desc t c₂ a := (hmemc c₂ hc₂ a).mp ha₂
        have hp₁ := (hw.mem_children_iff n c₁).mp hc₁
        have hp₂ := (hw.mem_children_iff n c₂).mp hc₂
        rcases desc_comparable t hd₁ hd₂ with h | h
        · exact hne (desc_child_child t rank hw hp₁ hp₂ h)
        · exact hne (desc_child_child t rank hw hp₂ hp₁ h).symm
    exact ⟨hstab, hmem, hnd⟩

theorem toListFrom_stable (t : Tree) (rank : String → Nat) (hw : TreeWF t rank) {n : String}
    (hn : n ∈ t.nodes) {f₁ f₂ : Nat} (h₁ : t.measureOf rank n < f₁)
    (h₂ : t.measureOf rank n < f₂) : t.toListFrom f₁ n = t.toListFrom f₂ n :=
  (toListFrom_spec t rank hw (t.measureOf rank n + 1) n hn (Nat.lt_succ_self _) f₁ h₁).1 f₂ h₂

theorem mem_toListFrom (t : Tree) (rank : String → Nat) (hw : TreeWF t rank) {n : String}
    (hn : n ∈ t.nodes) {fuel : Nat} (hf : t.measureOf rank n < fuel) (m : String) :
    m ∈ t.toListFrom fuel n ↔ desc t n m :=
  (toListFrom_spec t rank hw (t.measureOf rank n + 1) n hn (Nat.lt_succ_self _) fuel hf).2.1 m

theorem toListFrom_nodup (t : Tree) (rank : String → Nat) (hw : TreeWF t rank) {n : String}
    (hn : n ∈ t.nodes) {fuel : Nat} (hf : t.measureOf rank n < fuel) :
    (t.toListFrom fuel n).Nodup :=
  (toListFrom_spec t rank hw (t.measureOf rank n + 1) n hn (Nat.lt_succ_self _) fuel hf).2.2


theorem toListFrom_canonical_unfold (t : Tree) (rank : String → Nat) (hw : TreeWF t rank)
    {n : String} (hn : n ∈ t.nodes) :
    t.toListFrom t.nodes.length n
      = n :: (t.children n).flatMap (t.toListFrom t.nodes.length) := by
  have hL : t.measureOf rank n < t.nodes.length := measure_lt_length t rank hn
  obtain ⟨f, hf⟩ : ∃ f, t.nodes.length = f + 1 := ⟨t.nodes.length - 1, by omega⟩
  rw [hf]
  have hstep : t.toListFrom (f + 1) n = n :: (t.children n).flatMap (t.toListFrom f) := rfl
  rw [hstep]
  congr 1
  apply flatMap_congr_mem
  intro c hc
  have hμ := measure_lt_of_child t rank hw hc
  have hcm : c ∈ t.nodes := (hw.children_mem n c hc).1
  refine toListFrom_stable t rank hw hcm ?_ ?_ <;> omega

theorem toListFrom_infix (t : Tree) (rank : String → Nat) (hw : TreeWF t rank) :
    ∀ (K : Nat) (n : String), n ∈ t.nodes → t.measureOf rank n < K →
      ∀ p, desc t n p →
        List.IsInfix (t.toListFrom t.nodes.length p) (t.toListFrom t.nodes.length n) := by
  intro K
  induction K with
  | zero => intro n _ h; omega
  | succ K ih =>
    intro n hn hK p hdesc
    rcases Relation.ReflTransGen.cases_head hdesc with rfl | ⟨c, hstep, hdp⟩
    · exact List.infix_refl _
    · have hc : c ∈ t.children n := (hw.mem_children_iff n c).mpr hstep
      have hcm : c ∈ t.nodes := (hw.children_mem n c hc).1
      have hμ := measure_lt_of_child t rank hw hc
      have h1 := ih c hcm (by omega) p hdp
      have h2 : List.IsInfix (t.toListFrom t.nodes.length c)
          ((t.children n).flatMap (t.toListFrom t.nodes.length)) :=
        List.infix_flatMap_of_mem hc _
      have h3 : List.IsInfix ((t.children n).flatMap (t.toListFrom t.nodes.length))
          (n :: (t.children n).flatMap (t.toListFrom t.nodes.length)) := by
        refine ⟨[n], [], ?_⟩
        simp
      rw [toListFrom_canonical_unfold t rank hw hn]
      exact (h1.trans h2).trans h3

theorem mem_roots_iff (t : Tree) (r : String) :
    r ∈ t.roots ↔ r ∈ t.nodes ∧ t.parent r = none := by
  simp [Tree.roots, Option.isNone_iff_eq_none]

theorem toListFrom_infix_to_list (t : Tree) (rank : String → Nat) (hw : TreeWF t rank)
    {p : String} (hp : p ∈ t.nodes) :
    List.IsInfix (t.toListFrom t.nodes.length p) t.to_list := by
  obtain ⟨r, hr, hroot, hdesc⟩ := root_exists t rank hw (rank p + 1) p (Nat.lt_succ_self _) hp
  have h1 := toListFrom_infix t rank hw (t.measureOf rank r + 1) r hr (Nat.lt_succ_self _) p hdesc
  have hrroots : r ∈ t.roots := (mem_roots_iff t r).mpr ⟨hr, hroot⟩
  exact h1.trans (List.infix_flatMap_of_mem hrroots _)

theorem sum_map_single (f : String → Nat) :
    ∀ (L : List String), L.Nodup → ∀ r₀ ∈ L, (∀ r ∈ L, r ≠ r₀ → f r = 0) →
      (L.map f).sum = f r₀ := by
  intro L
  induction L with
  | nil => intro _ r₀ h; cases h
  | cons a L ih =>
    intro hnd r₀ hr₀ hz
    rw [List.nodup_cons] at hnd
    rcases List.mem_cons.mp hr₀ with rfl | hmem
    · simp only [List.map_cons, List.sum_cons]
      have : (L.map f).sum = 0 := by
        apply List.sum_eq_zero
        intro x hx
        rw [List.mem_map] at hx
        obtain ⟨r, hr, rfl⟩ := hx
        apply hz r (List.mem_cons_of_mem _ hr)
        intro hcontra
        exact hnd.1 (hcontra ▸ hr)
      omega
    · simp only [List.map_cons, List.sum_cons]
      have ha : f a = 0 := by
        apply hz a (List.mem_cons_self _ _)
        intro hcontra
        exact hnd.1 (hcontra ▸ hmem)
      rw [ha, ih hnd.2 r₀ hmem (fun r hr hne => hz r (List.mem_cons_of_mem _ hr) hne)]
      omega

theorem roots_nodup (t : Tree) (rank : String → Nat) (hw : TreeWF t rank) : t.roots.Nodup :=
  hw.nodes_nodup.filter _

theorem to_list_count (t : Tree) (rank : String → Nat) (hw : TreeWF t rank) (m : String) :
    t.to_list.count m = t.nodes.count m := by
  rw [Tree.to_list, List.count_flatMap]
  by_cases hm : m ∈ t.nodes
  · obtain ⟨r₀, hr₀, hroot₀, hdesc₀⟩ :=
      root_exists t rank hw (rank m + 1) m (Nat.lt_succ_self _) hm
    have hr₀roots : r₀ ∈ t.roots := (mem_roots_iff t r₀).mpr ⟨hr₀, hroot₀⟩
    have hcount₀ : (Function.comp (List.count m) (t.toListFrom t.nodes.length)) r₀ = 1 := by
      simp only [Function.comp]
      apply List.count_eq_one_of_mem
      · exact toListFrom_nodup t rank hw hr₀ (measure_lt_length t rank hr₀)
      · exact (mem_toListFrom t rank hw hr₀ (measure_lt_length t rank hr₀) m).mpr hdesc₀
    have hcountz : ∀ r ∈ t.roots, r ≠ r₀ →
        (Function.comp (List.count m) (t.toListFrom t.nodes.length)) r = 0 := by
      intro r hr hne
      obtain ⟨hrm, hrn⟩ := (mem_roots_iff t r).mp hr
      simp only [Function.comp]
      rw [List.count_eq_zero]
      intro hmem
      have hd : desc t r m :=
        (mem_toListFrom t rank hw hrm (measure_lt_length t rank hrm) m).mp hmem
      exact hne (root_unique t rank hw hrn hroot₀ hd hdesc₀)
    rw [sum_map_single _ t.roots (roots_nodup t rank hw) r₀ hr₀roots hcountz, hcount₀]
    exact (List.count_eq_one_of_mem hw.nodes_nodup hm).symm
  · have h1 : (t.roots.map (Function.comp (List.count m) (t.toListFrom t.nodes.length))).sum
        = 0 := by
      apply List.sum_eq_zero
      intro x hx
      rw [List.mem_map] at hx
      obtain ⟨r, hr, rfl⟩ := hx
      obtain ⟨hrm, _⟩ := (mem_roots_iff t r).mp hr
      simp only [Function.comp]
      rw [List.count_eq_zero]
      intro hmem
      have hd : desc t r m :=
        (mem_toListFrom t rank hw hrm (measure_lt_length t rank hrm) m).mp hmem
      exact hm (desc_mem t rank hw hrm hd)
    rw [h1]
    exact (List.count_eq_zero.mpr hm).symm

theorem to_list_perm (t : Tree) (rank : String → Nat) (hw : TreeWF t rank) :
    t.to_list.Perm t.nodes :=
  List.perm_iff_count.mpr (to_list_count t rank hw)

theorem to_list_nodup (t : Tree) (rank : String → Nat) (hw : TreeWF t rank) :
    t.to_list.Nodup := by
  rw [Tree.to_list, List.nodup_flatMap]
  constructor
  · intro r hr
    obtain ⟨hrm, _⟩ := (mem_roots_iff t r).mp hr
    exact toListFrom_nodup t rank hw hrm (measure_lt_length t rank hrm)
  · apply List.Pairwise.imp_of_mem ?_ (roots_nodup t rank hw)
    intro r₁ r₂ hr₁ hr₂ hne
    intro a ha₁ ha₂
    obtain ⟨hm₁, hn₁⟩ := (mem_roots_iff t r₁).mp hr₁
    obtain ⟨hm₂, hn₂⟩ := (mem_roots_iff t r₂).mp hr₂
    have hd₁ : desc t r₁ a :=
      (mem_toListFrom t rank hw hm₁ (measure_lt_length t rank hm₁) a).mp ha₁
    have hd₂ : desc t r₂ a :=
      (mem_toListFrom t rank hw hm₂ (measure_lt_length t rank hm₂) a).mp ha₂
    exact hne (root_unique t rank hw hn₁ hn₂ hd₁ hd₂)


theorem sublist_flatMap_heads (L : List String) (f : String → List String)
    (hf : ∀ x ∈ L, ∃ tl, f x = x :: tl) : List.Sublist L (L.flatMap f) := by
  induction L with
  | nil => simp
  | cons a L ih =>
    obtain ⟨tl, htl⟩ := hf a (List.mem_cons_self a L)
    rw [List.flatMap_cons, htl]
    refine List.Sublist.cons₂ a ?_
    exact (ih (fun x hx => hf x (List.mem_cons_of_mem a hx))).trans
      (List.sublist_append_right tl _)

theorem precedes_of_strictAnc (t : Tree) (rank : String → Nat) (hw : TreeWF t rank)
    {n m : String} (h : strictAnc t n m) : Precedes t.to_list n m := by
  obtain ⟨c, hstep, hdesc⟩ := Relation.TransGen.head'_iff.mp h
  have hn : n ∈ t.nodes := (hw.parent_mem c n hstep).2
  have hmm : m ∈ t.toListFrom t.nodes.length n :=
    (mem_toListFrom t rank hw hn (measure_lt_length t rank hn) m).mpr h.to_reflTransGen
  have hne : m ≠ n := by
    have hlt := strictAnc_rank_lt t rank hw h
    intro hmn
    rw [hmn] at hlt
    omega
  rw [toListFrom_canonical_unfold t rank hw hn] at hmm
  rcases List.mem_cons.mp hmm with rfl | htail
  · exact absurd rfl hne
  · simp only [Precedes]
    have h1 : List.Sublist [n, m] (t.toListFrom t.nodes.length n) := by
      rw [toListFrom_canonical_unfold t rank hw hn]
      exact List.Sublist.cons₂ n (List.singleton_sublist.mpr htail)
    exact h1.trans (toListFrom_infix_to_list t rank hw hn).sublist

theorem precedes_of_children (t : Tree) (rank : String → Nat) (hw : TreeWF t rank)
    {p c₁ c₂ : String} (h : Precedes (t.children p) c₁ c₂) :
    Precedes t.to_list c₁ c₂ := by
  simp only [Precedes] at h ⊢
  have hc₁ : c₁ ∈ t.children p := h.subset (by simp)
  have hp : p ∈ t.nodes := (hw.children_mem p c₁ hc₁).2
  have hheads : ∀ x ∈ t.children p, ∃ tl, t.toListFrom t.nodes.length x = x :: tl := by
    intro x hx
    exact ⟨_, toListFrom_canonical_unfold t rank hw (hw.children_mem p x hx).1⟩
  have h1 : List.Sublist [c₁, c₂] ((t.children p).flatMap (t.toListFrom t.nodes.length)) :=
    h.trans (sublist_flatMap_heads _ _ hheads)
  have h2 : List.Sublist [c₁, c₂] (t.toListFrom t.nodes.length p) := by
    rw [toListFrom_canonical_unfold t rank hw hp]
    exact h1.trans (List.sublist_cons_self p _)
  exact h2.trans (toListFrom_infix_to_list t rank hw hp).sublist

theorem precedes_of_roots (t : Tree) (rank : String → Nat) (hw : TreeWF t rank)
    {r₁ r₂ : String} (h : Precedes t.roots r₁ r₂) : Precedes t.to_list r₁ r₂ := by
  simp only [Precedes] at h ⊢
  have hheads : ∀ x ∈ t.roots, ∃ tl, t.toListFrom t.nodes.length x = x :: tl := by
    intro x hx
    exact ⟨_, toListFrom_canonical_unfold t rank hw ((mem_roots_iff t x).mp hx).1⟩
  rw [Tree.to_list]
  exact h.trans (sublist_flatMap_heads _ _ hheads)


theorem emptyTree_wf (rank : String → Nat) :
    TreeWF ⟨[], fun _ => none, fun _ => []⟩ rank := by
  refine ⟨List.nodup_nil, ?_, ?_, ?_, ?_, ?_⟩
  · intro n p h; cases h
  · intro p c h; cases h
  · intro p c; simp
  · intro p; exact List.nodup_nil
  · intro n p h; cases h

theorem treeBuild_wf (l : List (String × Option String)) (rank : String → Nat)
    (hacyc : ∀ pr ∈ l, pairRankOk rank pr = true)
    (hdup : ∀ pr ∈ l, l.countP (realParentPush pr.1) ≤ 1) :
    TreeWF (treeBuild l) rank := by
  have hdupG : ∀ n, l.countP (realParentPush n) ≤ 1 := by
    intro n
    by_cases h : 0 < l.countP (realParentPush n)
    · obtain ⟨pr, hpr, hmatch⟩ := List.countP_pos_iff.mp h
      have heq : pr.1 = n := by
        simp only [realParentPush, Bool.and_eq_true, beq_iff_eq] at hmatch
        exact hmatch.1
      rw [← heq]
      exact hdup pr hpr
    · omega
  exact foldl_push_wf rank l _ (emptyTree_wf rank) (fun n h => by simp at h) hdupG hacyc

/-- C1 (amended).  For every finite acyclic sequence of
`(name, parentName-or-absent)` pairs — forward references allowed, and
no name pushed more than once with a (non-self) parent — pushing each
pair in order into a `Tree` and calling `to_list` yields a permutation
of the distinct mentioned names in which every name appears after its
parent (if any) and after each of its strict ancestors (hence before
all of its declared descendants), siblings keep their first-seen
relative order (the children lists accumulate exactly the pushes naming
that parent, in input order, and root order is node creation order),
and re-running on the same input yields the same output.  Acyclicity is
certified by a rank function decreasing along parent references;
`Precedes l a b` states that `a` occurs before `b` in `l` (which, with
`to_list` duplicate-free, pins their relative order). -/
theorem treeBuild_hierarchy_amended (l : List (String × Option String))
    (rank : String → Nat)
    (hacyc : ∀ pr ∈ l, pairRankOk rank pr = true)
    (hdup : ∀ pr ∈ l, l.countP (realParentPush pr.1) ≤ 1) :
    (treeBuild l).to_list.Perm (treeBuild l).nodes
    ∧ (treeBuild l).to_list.Nodup
    ∧ (treeBuild l).nodes.Nodup
    ∧ (∀ x, x ∈ (treeBuild l).nodes ↔ ∃ pr ∈ l, pr.1 = x ∨ pr.2 = some x)
    ∧ (∀ n p, (treeBuild l).parent n = some p → Precedes (treeBuild l).to_list p n)
    ∧ (∀ n m, strictAnc (treeBuild l) n m → Precedes (treeBuild l).to_list n m)
    ∧ (∀ p c₁ c₂, Precedes ((treeBuild l).children p) c₁ c₂ →
        Precedes (treeBuild l).to_list c₁ c₂)
    ∧ (∀ p, (treeBuild l).children p
        = (l.filter (fun pr => pr.2 == some p && pr.1 != p)).map Prod.fst)
    ∧ (∀ r₁ r₂, Precedes (treeBuild l).roots r₁ r₂ → Precedes (treeBuild l).to_list r₁ r₂)
    ∧ (∀ l', l' = l → (treeBuild l').to_list = (treeBuild l).to_list) := by
  have hw := treeBuild_wf l rank hacyc hdup
  refine ⟨to_list_perm _ rank hw, to_list_nodup _ rank hw, hw.nodes_nodup, ?_, ?_, ?_, ?_, ?_,
    ?_, ?_⟩
  · intro x
    have h := foldl_push_nodes_mem l ⟨[], fun _ => none, fun _ => []⟩ x
    simpa using h
  · intro n p hp
    exact precedes_of_strictAnc _ rank hw (Relation.TransGen.single hp)
  · intro n m h
    exact precedes_of_strictAnc _ rank hw h
  · intro p c₁ c₂ h
    exact precedes_of_children _ rank hw h
  · intro p
    have h := foldl_push_children l ⟨[], fun _ => none, fun _ => []⟩ p
    simpa using h
  · intro r₁ r₂ h
    exact precedes_of_roots _ rank hw h
  · intro l' hl
    rw [hl]

/-- Counterexample to C1 as stated: the claim admits duplicate pairs,
but pushing the same `(name, parent)` pair twice appends the node to
its parent's children list twice — `to_list` then emits the duplicated
name once per push and is not a permutation of the distinct input names
(it is not even duplicate-free).  The input is acyclic (witnessed by
`String.length` as rank). -/
theorem tree_duplicate_push_counterexample :
    (treeBuild [("AA", some "P"), ("AA", some "P")]).to_list = ["P", "AA", "AA"]
    ∧ ¬ (treeBuild [("AA", some "P"), ("AA", some "P")]).to_list.Nodup
    ∧ pairRankOk String.length ("AA", some "P") = true := by
  refine ⟨by decide, by decide, by decide⟩

/-- Witness for C1 (amended) at the spec's own two-record scenario,
with `String.length` certifying acyclicity. -/
theorem treeBuild_hierarchy_amended_witness :
    (treeBuild [("Cube", none), ("Cube.001", some "Cube")]).to_list.Perm
      (treeBuild [("Cube", none), ("Cube.001", some "Cube")]).nodes :=
  (treeBuild_hierarchy_amended [("Cube", none), ("Cube.001", some "Cube")] String.length
    (by decide) (by decide)).1

end Urho
